import Mathlib

/-!
Verification development for the git-deploy module of the repository
(`parseGitUrl`, `cloneRepository`, `getRepoInfo`, `pushToGitHub`,
`collectFiles`, `cleanupTempDir`, `deployFromGit`).

The module drives the GitHub HTTP API; the embedding models the network
as oracle functions supplied in an environment structure, the local
filesystem as an explicit value, and records the hosting-service calls a
run issues as an explicit trace list.
-/

/-! ## URL parsing (`parseGitUrl`) -/

/-- The characters of the host literal `github.com` that occurs in all three
URL patterns of `parseGitUrl`. -/
def ghHost : List Char := "github.com".data

/-- The characters of `.git`, used by the optional `(\.git)?` group and by
the `replace(/\.git$/, "")` post-processing of the repo capture. -/
def dotGit : List Char := ['.', 'g', 'i', 't']

/-- JS `s.replace(/\.git$/, "")`: strip one trailing `.git` when present
(possibly producing the empty string). -/
def stripGit (l : List Char) : List Char :=
  if dotGit.isSuffixOf l then l.take (l.length - 4) else l

/-- Capture of the lazy group `([^/]+?)` followed by `(\.git)?$`: the lazy
group yields a trailing `.git` to the optional group exactly when what it
keeps is still nonempty. -/
def lazyGit (l : List Char) : List Char :=
  if dotGit.isSuffixOf l ∧ 4 < l.length then l.take (l.length - 4) else l

/-- The `{owner, repo}` pair `parseGitUrl` returns. -/
structure ParsedUrl where
  owner : String
  repo : String
deriving DecidableEq, Repr

/-- Match `([^/]+)\/([^/]+?)...$` against the remainder after the host
separator: a greedy slash-free owner run, a literal `/`, then a nonempty
slash-free tail reaching the end of the input.  The greedy owner group can
only be the maximal slash-free run, because shrinking it leaves a
non-slash character where the pattern demands `/`. -/
def splitOwnerTail (rest : List Char) : Option (List Char × List Char) :=
  let owner := rest.takeWhile (· != '/')
  match rest.dropWhile (· != '/') with
  | '/' :: tail =>
      if owner ≠ [] ∧ tail ≠ [] ∧ '/' ∉ tail then some (owner, tail) else none
  | _ => none

/-- Pattern 1, `github\.com[/:]([^/]+)\/([^/]+?)(\.git)?$`, tried at the
start of `l`; the scan over start positions is `scanP1`. -/
def tryP1At (l : List Char) : Option ParsedUrl :=
  if ghHost.isPrefixOf l then
    match l.drop 10 with
    | sep :: rest =>
        if sep = '/' ∨ sep = ':' then
          match splitOwnerTail rest with
          | some (o, t) => some ⟨⟨o⟩, ⟨stripGit (lazyGit t)⟩⟩
          | none => none
        else none
    | [] => none
  else none

/-- Leftmost-match scan for pattern 1 (JS regexes without `^` try each
start position from the left). -/
def scanP1 : List Char → Option ParsedUrl
  | [] => none
  | c :: l =>
    match tryP1At (c :: l) with
    | some p => some p
    | none => scanP1 l

/-- The characters of the literal head of pattern 2. -/
def sshLit : List Char := "git@github.com:".data

/-- Pattern 2, `git@github\.com:([^/]+)\/([^/]+?)(\.git)?$`, tried at the
start of `l`. -/
def tryP2At (l : List Char) : Option ParsedUrl :=
  if sshLit.isPrefixOf l then
    match splitOwnerTail (l.drop 15) with
    | some (o, t) => some ⟨⟨o⟩, ⟨stripGit (lazyGit t)⟩⟩
    | none => none
  else none

/-- Leftmost-match scan for pattern 2. -/
def scanP2 : List Char → Option ParsedUrl
  | [] => none
  | c :: l =>
    match tryP2At (c :: l) with
    | some p => some p
    | none => scanP2 l

/-- The characters of the literal head of pattern 3. -/
def webLit : List Char := "github.com/".data

/-- Pattern 3, `github\.com\/([^/]+)\/([^/]+?)$`, tried at the start of
`l`; the forced lazy capture is the whole final segment. -/
def tryP3At (l : List Char) : Option ParsedUrl :=
  if webLit.isPrefixOf l then
    match splitOwnerTail (l.drop 11) with
    | some (o, t) => some ⟨⟨o⟩, ⟨stripGit t⟩⟩
    | none => none
  else none

/-- Leftmost-match scan for pattern 3. -/
def scanP3 : List Char → Option ParsedUrl
  | [] => none
  | c :: l =>
    match tryP3At (c :: l) with
    | some p => some p
    | none => scanP3 l

/-- `parseGitUrl` (git-deploy module): try the three patterns in order,
each with JS leftmost-match semantics, and return the `{owner, repo}`
captures of the first match, with a trailing `.git` stripped from the repo
capture. -/
def parseGitUrl (url : String) : Option ParsedUrl :=
  match scanP1 url.data with
  | some p => some p
  | none =>
    match scanP2 url.data with
    | some p => some p
    | none => scanP3 url.data

example : parseGitUrl "https://github.com/owner/repo.git" = some ⟨"owner", "repo"⟩ := by decide
example : parseGitUrl "git@github.com:owner/repo.git" = some ⟨"owner", "repo"⟩ := by decide
example : parseGitUrl "https://github.com/owner/repo" = some ⟨"owner", "repo"⟩ := by decide
example : parseGitUrl "github.com/a/b" = some ⟨"a", "b"⟩ := by decide
example : parseGitUrl "https://gitlab.com/a/b" = none := by decide
example : parseGitUrl "https://github.com/a/b/c" = none := by decide
example : parseGitUrl "https://github.com/owner/.git" = some ⟨"owner", ""⟩ := by decide

/-! ## Local filesystem model and `collectFiles` -/

/-- One entry of a directory listing: a regular file with its content, or a
subdirectory with its own listing (`fs.readdirSync(dir, {withFileTypes})`
order is the list order). -/
inductive FsEntry where
  | file (name : String) (content : String)
  | dir (name : String) (entries : List FsEntry)
deriving Repr

/-- The name of a directory entry. -/
def FsEntry.name : FsEntry → String
  | .file n _ => n
  | .dir n _ => n

/-- One file collected for upload: its path relative to the workspace root
and its content (the model keeps content in place of the absolute path the
source pairs with it). -/
structure FileEntry where
  relativePath : String
  content : String
deriving DecidableEq, Repr

/-- The directory names `collectFiles` never descends into. -/
def skipDirs : List String :=
  [".git", "node_modules", "__pycache__", ".venv", "venv", ".pytest_cache",
   "dist", ".next", "coverage"]

/-- The file names `collectFiles` never collects. -/
def skipFiles : List String := [".DS_Store", "Thumbs.db"]

/-- `path.join` of a relative path so far and an entry name (empty path so
far at the workspace root). -/
def joinRel (pre name : String) : String :=
  if pre = "" then name else pre ++ "/" ++ name

mutual
/-- `collectFiles` on one directory entry, carrying the relative path of
the containing directory. -/
def collectEntry : FsEntry → String → List FileEntry
  | .dir n es, pre => if n ∈ skipDirs then [] else collectList es (joinRel pre n)
  | .file n c, pre => if n ∈ skipFiles then [] else [⟨joinRel pre n, c⟩]

/-- `collectFiles` (git-deploy module): recursively list every file under
the workspace, skipping `skipDirs` directories and `skipFiles` files, in
listing order. -/
def collectList : List FsEntry → String → List FileEntry
  | [], _ => []
  | e :: rest, pre => collectEntry e pre ++ collectList rest pre
end

example :
    collectList
      [.file "a.txt" "A",
       .dir ".git" [.file "config" "x"],
       .dir "srcdir" [.file "b.txt" "B", .file ".DS_Store" "junk"],
       .dir "node_modules" [.file "m.js" "r"]] "" =
    [⟨"a.txt", "A"⟩, ⟨"srcdir/b.txt", "B"⟩] := by decide

/-! ## File materializer (step 3 of `deployFromGit`, lines 616-632) -/

/-- Whether `fs.existsSync` finds a top-level entry of the given name
(files and directories both count). -/
def existsTop (ws : List FsEntry) (name : String) : Bool :=
  ws.any fun e => e.name = name

/-- The top-level entry of the given name, when present. -/
def lookupTop (ws : List FsEntry) (name : String) : Option FsEntry :=
  ws.find? fun e => e.name = name

/-- `fs.writeFileSync` at a top-level name: replace the entry of that name,
or append a new file. -/
def writeTop (ws : List FsEntry) (name content : String) : List FsEntry :=
  match ws with
  | [] => [.file name content]
  | e :: rest =>
      if e.name = name then .file name content :: rest
      else e :: writeTop rest name content

/-- JS truthiness test `!content` for a `GeneratedFiles` value: absent
(`undefined`) or the empty string. -/
def falsyContent : Option String → Bool
  | none => true
  | some c => c = ""

/-- The generated-files loop of `deployFromGit` (step 3): entries with
falsy content are ignored; an existing path with `force = false` is
recorded as skipped; otherwise the file is written and recorded as
generated.  Returns `(filesGenerated, filesSkipped, workspace)`. -/
def materialize (ws : List FsEntry) (files : List (String × Option String))
    (force : Bool) : List String × List String × List FsEntry :=
  match files with
  | [] => ([], [], ws)
  | (name, content) :: rest =>
    match content with
    | none => materialize ws rest force
    | some c =>
      if c = "" then materialize ws rest force
      else if existsTop ws name ∧ ¬force then
        let r := materialize ws rest force
        (r.1, name :: r.2.1, r.2.2)
      else
        let r := materialize (writeTop ws name c) rest force
        (name :: r.1, r.2.1, r.2.2)

example :
    materialize [.file "README.md" "old"]
      [("smithery.yaml", some "runtime: typescript\n"), ("README.md", some "new"),
       ("Dockerfile", some ""), (".dockerignore", none)] false =
    (["smithery.yaml"], ["README.md"],
     [.file "README.md" "old", .file "smithery.yaml" "runtime: typescript\n"]) := rfl

/-! ## GitHub API model and `pushToGitHub` -/

/-- One row of the tree-creation payload; the source fixes
`mode = "100644"` and `type = "blob"` on every row, so only the varying
fields are kept. -/
structure TreeItem where
  path : String
  sha : String
deriving DecidableEq, Repr

/-- One hosting-service call issued by `pushToGitHub`, in issue order.
`getRef`/`getCommit` are the read lookups; the rest are the object
creations (for blob creation the request body is the file content, the
base64 transport encoding being absorbed into the oracle). -/
inductive Call where
  | getRef (branch : String)
  | getCommit (sha : String)
  | createBlob (content : String)
  | createTree (baseTree : String) (items : List TreeItem)
  | createCommit (message : String) (tree : String) (parents : List String)
  | updateRef (branch : String) (sha : String)
  | createRef (branch : String) (sha : String)
deriving DecidableEq, Repr

/-- Response oracles for the hosting-service endpoints `pushToGitHub`
uses.  A `none`/`.error` response models a non-ok HTTP response together
with its error text; `commitTree` models the commit lookup whose JSON is
read without an ok-check in the source. -/
structure Api where
  refSha : String → Option String
  commitTree : String → String
  blob : String → Except String String
  tree : String → List TreeItem → Except String String
  commit : String → String → List String → Except String String
  updRef : String → String → Bool
  crtRef : String → String → Except String Unit

/-- The result record of `pushToGitHub`. -/
structure PushResult where
  success : Bool
  error : Option String
deriving DecidableEq, Repr

/-- Step 3 of `pushToGitHub`: create blobs one at a time in enumeration
order; stop at the first non-ok response, reporting that file and the
response text.  Returns the outcome together with the blob calls issued. -/
def createBlobs (api : Api) : List FileEntry →
    Except (String × String) (List TreeItem) × List Call
  | [] => (.ok [], [])
  | f :: rest =>
    match api.blob f.content with
    | .error e => (.error (f.relativePath, e), [.createBlob f.content])
    | .ok sha =>
        let r := createBlobs api rest
        ((r.1.map fun items => ⟨f.relativePath, sha⟩ :: items),
         .createBlob f.content :: r.2)

/-- Steps 2-6 of `pushToGitHub`, entered with the resolved base commit and
base tree and the trace `pre` of the base-resolution lookups. -/
def pushAfterBase (api : Api) (localDir : List FsEntry)
    (targetBranch commitMessage baseSha baseTreeSha : String)
    (pre : List Call) : PushResult × List Call :=
  let filesToUpload := collectList localDir ""
  if filesToUpload.isEmpty then
    (⟨false, some "No files to upload"⟩, pre)
  else
    match createBlobs api filesToUpload with
    | (.error (p, e), calls) =>
        (⟨false, some ("Failed to create blob for " ++ p ++ ": " ++ e)⟩,
         pre ++ calls)
    | (.ok treeItems, calls) =>
      match api.tree baseTreeSha treeItems with
      | .error e =>
          (⟨false, some ("Failed to create tree: " ++ e)⟩,
           pre ++ calls ++ [.createTree baseTreeSha treeItems])
      | .ok treeSha =>
        match api.commit commitMessage treeSha [baseSha] with
        | .error e =>
            (⟨false, some ("Failed to create commit: " ++ e)⟩,
             pre ++ calls ++ [.createTree baseTreeSha treeItems,
               .createCommit commitMessage treeSha [baseSha]])
        | .ok commitSha =>
          if api.updRef targetBranch commitSha then
            (⟨true, none⟩,
             pre ++ calls ++ [.createTree baseTreeSha treeItems,
               .createCommit commitMessage treeSha [baseSha],
               .updateRef targetBranch commitSha])
          else
            match api.crtRef targetBranch commitSha with
            | .ok _ =>
                (⟨true, none⟩,
                 pre ++ calls ++ [.createTree baseTreeSha treeItems,
                   .createCommit commitMessage treeSha [baseSha],
                   .updateRef targetBranch commitSha,
                   .createRef targetBranch commitSha])
            | .error e =>
                (⟨false, some ("Failed to update/create branch: " ++ e)⟩,
                 pre ++ calls ++ [.createTree baseTreeSha treeItems,
                   .createCommit commitMessage treeSha [baseSha],
                   .updateRef targetBranch commitSha,
                   .createRef targetBranch commitSha])

/-- `pushToGitHub` (git-deploy module): resolve the base (target branch,
then `main`, then `master`), then run steps 2-6.  Returns the result and
the full trace of hosting-service calls. -/
def pushToGitHub (api : Api) (localDir : List FsEntry)
    (targetBranch commitMessage : String) : PushResult × List Call :=
  match api.refSha targetBranch with
  | some baseSha =>
      pushAfterBase api localDir targetBranch commitMessage baseSha
        (api.commitTree baseSha)
        [.getRef targetBranch, .getCommit baseSha]
  | none =>
    match api.refSha "main" with
    | some baseSha =>
        pushAfterBase api localDir targetBranch commitMessage baseSha
          (api.commitTree baseSha)
          [.getRef targetBranch, .getRef "main", .getCommit baseSha]
    | none =>
      match api.refSha "master" with
      | some baseSha =>
          pushAfterBase api localDir targetBranch commitMessage baseSha
            (api.commitTree baseSha)
            [.getRef targetBranch, .getRef "main", .getRef "master",
             .getCommit baseSha]
      | none =>
          (⟨false, some "Could not find any branch to base commit on"⟩,
           [.getRef targetBranch, .getRef "main", .getRef "master"])

/-- The base commit the resolution step of `pushToGitHub` settles on:
the target branch tip if present, else `main`, else `master`. -/
def resolveBaseSha (api : Api) (targetBranch : String) : Option String :=
  match api.refSha targetBranch with
  | some s => some s
  | none =>
    match api.refSha "main" with
    | some s => some s
    | none => api.refSha "master"

/-- Oracle set for a small healthy repository, used by concrete runs. -/
def apiOk : Api where
  refSha := fun b => if b = "main" then some "base0" else none
  commitTree := fun _ => "tree0"
  blob := fun c => .ok ("blob-" ++ c)
  tree := fun _ _ => .ok "tree1"
  commit := fun _ _ _ => .ok "commit1"
  updRef := fun _ _ => true
  crtRef := fun _ _ => .ok ()

example :
    pushToGitHub apiOk [.file "a.txt" "A"] "main" "msg" =
    (⟨true, none⟩,
     [.getRef "main", .getCommit "base0", .createBlob "A",
      .createTree "tree0" [⟨"a.txt", "blob-A"⟩],
      .createCommit "msg" "tree1" ["base0"],
      .updateRef "main" "commit1"]) := by decide

/-! ## `cloneRepository` and `getRepoInfo` -/

/-- Outcome of the tarball download and extraction: the transport throws,
the response is non-ok (with its status line and error body), the response
has no body, extraction throws, or extraction succeeds with the stripped
archive contents. -/
inductive TarFetch where
  | netError (msg : String)
  | notOk (statusLine : String) (errorText : String)
  | noBody
  | extractError (msg : String)
  | ok (contents : List FsEntry)

/-- Environment of one `cloneRepository` run: the fresh scratch-directory
name `mkdtempSync` produces, the repository-metadata lookup (`.error` when
the transport throws, `.ok none` when the response is non-ok, `.ok (some d)`
for a reported default branch `d`), and the tarball fetch per branch. -/
structure CloneEnv where
  tempName : String
  repoInfo : Except String (Option String)
  tarball : String → TarFetch

/-- Filesystem and network events of a `cloneRepository` run, in order. -/
inductive CEvent where
  | mkdtemp (name : String)
  | getRepoInfo
  | fetchTarball (branch : String)
  | extract (name : String)
  | rm (name : String)
deriving DecidableEq, Repr

/-- `getRepoInfo` (git-deploy module): a non-ok metadata response is
already replaced by `{default_branch: "main"}` inside the helper; a
thrown transport error propagates. -/
def getRepoInfo (info : Except String (Option String)) : Except String String :=
  match info with
  | .error e => .error e
  | .ok none => .ok "main"
  | .ok (some d) => .ok d

/-- The branch `cloneRepository` resolves when none is given:
`getRepoInfo(...).default_branch || "main"` (the falsy empty string also
falls back). -/
def defaultOf (info : Option String) : String :=
  match info with
  | none => "main"
  | some d => if d = "" then "main" else d

/-- The catch block of `cloneRepository`: remove the scratch directory
(ignoring removal errors) and rethrow the wrapped fetch failure. -/
def cloneFail (td msg : String) (evs : List CEvent) :
    Except String (String × String × List FsEntry) × List CEvent :=
  (.error ("Failed to download repository: " ++ msg), evs ++ [.rm td])

/-- The download-and-extract tail of `cloneRepository`, entered with the
resolved branch. -/
def cloneFetch (env : CloneEnv) (td branch : String) (evs : List CEvent) :
    Except String (String × String × List FsEntry) × List CEvent :=
  match env.tarball branch with
  | .netError m => cloneFail td m (evs ++ [.fetchTarball branch])
  | .notOk statusLine errorText =>
      cloneFail td
        ("Failed to download repository: " ++ statusLine ++ ". " ++ errorText)
        (evs ++ [.fetchTarball branch])
  | .noBody =>
      cloneFail td "No response body received from GitHub API"
        (evs ++ [.fetchTarball branch])
  | .extractError m =>
      cloneFail td m (evs ++ [.fetchTarball branch, .extract td])
  | .ok contents =>
      (.ok (td, branch, contents), evs ++ [.fetchTarball branch, .extract td])

/-- `cloneRepository` (git-deploy module): parse the URL, create the
scratch directory, resolve the branch (querying `getRepoInfo` when none is
given), download and extract the tarball.  On any failure after the
directory exists, remove it and rethrow the wrapped error.  Success yields
`(tempDir, defaultBranch, contents)`. -/
def cloneRepository (env : CloneEnv) (repoUrl : String)
    (branch : Option String) :
    Except String (String × String × List FsEntry) × List CEvent :=
  match parseGitUrl repoUrl with
  | none =>
      (.error ("Invalid GitHub URL: " ++ repoUrl ++
        ". Only GitHub repositories are supported."), [])
  | some _ =>
    let td := env.tempName
    match branch with
    | some b => cloneFetch env td b [.mkdtemp td]
    | none =>
      match env.repoInfo with
      | .error e => cloneFail td e [.mkdtemp td, .getRepoInfo]
      | .ok info =>
          cloneFetch env td (defaultOf info) [.mkdtemp td, .getRepoInfo]

/-- A healthy clone environment used by concrete runs. -/
def cloneEnvOk : CloneEnv where
  tempName := "tmp0"
  repoInfo := .ok (some "dev")
  tarball := fun _ => .ok [.file "a.txt" "A"]

example :
    (cloneRepository cloneEnvOk "https://github.com/acme/widget" none).1 =
    .ok ("tmp0", "dev", [.file "a.txt" "A"]) := rfl
example :
    (cloneRepository cloneEnvOk "not a url" none).1 =
    .error "Invalid GitHub URL: not a url. Only GitHub repositories are supported." := rfl

/-! ## `cleanupTempDir` and `deployFromGit` -/

/-- Model of `fs.rmSync` on the scratch directory: it can throw. -/
def rmSync (fails : Bool) : Except String Unit :=
  if fails then .error "EBUSY: resource busy or locked" else .ok ()

/-- `cleanupTempDir` (git-deploy module): remove the directory and ignore
cleanup errors. -/
def cleanupTempDir (fails : Bool) : Unit :=
  match rmSync fails with
  | .ok _ => ()
  | .error _ => ()

/-- The orchestrator-level steps of one `deployFromGit` run, in order. -/
inductive DEvent where
  | cloneCall
  | checkRepo
  | createRepo
  | pushCall
  | cleanup (tempDir : String)
deriving DecidableEq, Repr

/-- The result record of `deployFromGit`. -/
structure GitDeployResult where
  success : Bool
  tempDir : Option String
  clonedFrom : String
  pushedTo : String
  filesGenerated : List String
  filesSkipped : List String
  deploymentUrl : String
  error : Option String
deriving DecidableEq, Repr

/-- Caller options of `deployFromGit` (the commit message is fixed by the
source; `githubToken` is absorbed into the oracles). -/
structure GitDeployOptions where
  sourceRepoUrl : String
  sourceBranch : Option String
  targetOwner : String
  targetRepo : String
  targetBranch : String
  createIfNotExists : Bool
  force : Bool

/-- Environment of one `deployFromGit` run: the clone environment, the
existence probe (`checkRepoExists` returns a plain boolean, any thrown
error already folded to `false`), the creation outcome (`createGitHubRepo`
returns `{success, error}` and never throws), the push oracles, and
whether scratch-directory removal throws. -/
structure DeployEnv where
  cloneEnv : CloneEnv
  repoExists : Bool
  createRepoError : Option String
  api : Api
  rmFails : Bool

/-- A failure `GitDeployResult` as built by the early-return and catch
paths of `deployFromGit`. -/
def deployFailure (opts : GitDeployOptions) (tempDir : Option String)
    (generated skipped : List String) (err : String) : GitDeployResult where
  success := false
  tempDir := tempDir
  clonedFrom := opts.sourceRepoUrl
  pushedTo := "github.com/" ++ opts.targetOwner ++ "/" ++ opts.targetRepo
  filesGenerated := generated
  filesSkipped := skipped
  deploymentUrl := ""
  error := some err

/-- Steps 2-5 of `deployFromGit`, entered after a successful clone. -/
def deployAfterClone (env : DeployEnv) (opts : GitDeployOptions)
    (generatedFiles : List (String × Option String))
    (contents : List FsEntry) : GitDeployResult × List DEvent :=
  if env.repoExists ∨ (opts.createIfNotExists ∧ env.createRepoError = none) then
    let r := materialize contents generatedFiles opts.force
    let pushResult :=
      (pushToGitHub env.api r.2.2 opts.targetBranch
        "Add Smithery deployment configuration").1
    let evs :=
      if env.repoExists then [DEvent.checkRepo, DEvent.pushCall]
      else [DEvent.checkRepo, DEvent.createRepo, DEvent.pushCall]
    if pushResult.success then
      ({success := true, tempDir := none, clonedFrom := opts.sourceRepoUrl,
        pushedTo := "https://github.com/" ++ opts.targetOwner ++ "/" ++
          opts.targetRepo,
        filesGenerated := r.1, filesSkipped := r.2.1,
        deploymentUrl := "https://smithery.ai/new?repo=" ++ opts.targetOwner ++
          "/" ++ opts.targetRepo,
        error := none}, evs)
    else
      (deployFailure opts (some env.cloneEnv.tempName) r.1 r.2.1
        ("Failed to push: " ++ pushResult.error.getD ""), evs)
  else if opts.createIfNotExists then
    (deployFailure opts none [] []
      ("Failed to create repository: " ++ (env.createRepoError.getD "")),
     [DEvent.checkRepo, DEvent.createRepo])
  else
    (deployFailure opts none [] []
      ("Repository " ++ opts.targetOwner ++ "/" ++ opts.targetRepo ++
        " does not exist and createIfNotExists is false"),
     [DEvent.checkRepo])

/-- `deployFromGit` (git-deploy module): clone, gate on repository
existence (creating on demand), materialize the generated files, push via
the API, and on every exit path after a successful clone remove the
scratch directory in the `finally` block, ignoring removal errors. -/
def deployFromGit (env : DeployEnv) (opts : GitDeployOptions)
    (generatedFiles : List (String × Option String)) :
    GitDeployResult × List DEvent :=
  match (cloneRepository env.cloneEnv opts.sourceRepoUrl opts.sourceBranch).1 with
  | .error e =>
      (deployFailure opts none [] [] e, [DEvent.cloneCall])
  | .ok (td, _resolvedBranch, contents) =>
      let r := deployAfterClone env opts generatedFiles contents
      let _ := cleanupTempDir env.rmFails
      (r.1, DEvent.cloneCall :: r.2 ++ [DEvent.cleanup td])

/-! ## Lemmas about `parseGitUrl` -/

theorem takeWhile_middle {α : Type} (p : α → Bool) (l₁ : List α) (x : α)
    (l₂ : List α) (h : ∀ a ∈ l₁, p a = true) (hx : p x = false) :
    (l₁ ++ x :: l₂).takeWhile p = l₁ := by
  rw [List.takeWhile_append_of_pos h, List.takeWhile_cons, hx]
  simp

theorem dropWhile_middle {α : Type} (p : α → Bool) (l₁ : List α) (x : α)
    (l₂ : List α) (h : ∀ a ∈ l₁, p a = true) (hx : p x = false) :
    (l₁ ++ x :: l₂).dropWhile p = x :: l₂ := by
  rw [List.dropWhile_append_of_pos h, List.dropWhile_cons, hx]
  simp

theorem splitOwnerTail_spec (o t : List Char) (ho : o ≠ []) (ho2 : '/' ∉ o)
    (ht : t ≠ []) (ht2 : '/' ∉ t) :
    splitOwnerTail (o ++ '/' :: t) = some (o, t) := by
  have hall : ∀ a ∈ o, (a != '/') = true := by
    intro a ha
    have : a ≠ '/' := fun h => ho2 (h ▸ ha)
    simpa [bne_iff_ne] using this
  have hx : (('/' : Char) != '/') = false := by decide
  simp only [splitOwnerTail, takeWhile_middle _ _ _ _ hall hx,
    dropWhile_middle _ _ _ _ hall hx]
  simp [ho, ht, ht2]

theorem lazyGit_append_dotGit (r : List Char) (hr : r ≠ []) :
    lazyGit (r ++ dotGit) = r := by
  have hsuf : dotGit.isSuffixOf (r ++ dotGit) = true := by
    simp [List.isSuffixOf_iff_suffix]
  have hlen : 4 < (r ++ dotGit).length := by
    have : 0 < r.length := List.length_pos.mpr hr
    simp only [List.length_append]
    simp [dotGit]
    omega
  simp only [lazyGit, hsuf, hlen, and_true, if_pos]
  exact List.take_left' (by simp only [List.length_append]
                            have h4 : dotGit.length = 4 := rfl
                            omega)

theorem lazyGit_of_not_suffix (r : List Char) (hr : ¬ dotGit <:+ r) :
    lazyGit r = r := by
  simp only [lazyGit]
  rw [if_neg]
  intro hc
  exact hr (List.isSuffixOf_iff_suffix.mp hc.1)

theorem stripGit_of_not_suffix (r : List Char) (hr : ¬ dotGit <:+ r) :
    stripGit r = r := by
  simp only [stripGit]
  rw [if_neg]
  intro hc
  exact hr (List.isSuffixOf_iff_suffix.mp hc)

theorem tryP1At_match (sep : Char) (hsep : sep = '/' ∨ sep = ':')
    (o t : List Char) (ho : o ≠ []) (ho2 : '/' ∉ o)
    (ht : t ≠ []) (ht2 : '/' ∉ t) :
    tryP1At (ghHost ++ sep :: (o ++ '/' :: t)) =
      some ⟨⟨o⟩, ⟨stripGit (lazyGit t)⟩⟩ := by
  have hpre : ghHost.isPrefixOf (ghHost ++ sep :: (o ++ '/' :: t)) = true := by
    simp [List.isPrefixOf_iff_prefix]
  have hdrop : (ghHost ++ sep :: (o ++ '/' :: t)).drop 10 =
      sep :: (o ++ '/' :: t) :=
    List.drop_left' (by rfl)
  simp only [tryP1At, hpre, if_true, hdrop]
  rcases hsep with h | h <;>
    simp [h, splitOwnerTail_spec o t ho ho2 ht ht2]

theorem scanP1_cons_none (c : Char) (l : List Char)
    (h : tryP1At (c :: l) = none) : scanP1 (c :: l) = scanP1 l := by
  simp [scanP1, h]

theorem tryP1At_none_of_head {c : Char} (l : List Char) (h : c ≠ 'g') :
    tryP1At (c :: l) = none := by
  have : ghHost.isPrefixOf (c :: l) = false := by
    simp [ghHost, List.isPrefixOf]
    intro h2
    exact absurd h2.symm h
  simp [tryP1At, this]

theorem scanP1_peel {c : Char} (l : List Char) (h : c ≠ 'g') :
    scanP1 (c :: l) = scanP1 l :=
  scanP1_cons_none c l (tryP1At_none_of_head l h)

theorem scanP1_of_tryP1At (l : List Char) (p : ParsedUrl) (hl : l ≠ [])
    (h : tryP1At l = some p) : scanP1 l = some p := by
  match l with
  | c :: l2 => simp [scanP1, h]

theorem dataAppend5 (a : String) (o : String) (b : String) (r : String)
    (c : String) :
    (a ++ o ++ b ++ r ++ c).data =
      a.data ++ (o.data ++ (b.data ++ (r.data ++ c.data))) := by
  simp only [String.data_append, List.append_assoc]

theorem slash_not_mem_append_dotGit (r : List Char) (hr2 : '/' ∉ r) :
    '/' ∉ r ++ dotGit := by
  intro hmem
  rcases List.mem_append.mp hmem with h | h
  · exact hr2 h
  · simp [dotGit] at h

theorem parseGitUrl_browse (o r : String) (ho : o.data ≠ [])
    (ho2 : '/' ∉ o.data) (hr : r.data ≠ []) (hr2 : '/' ∉ r.data)
    (hr3 : ¬ dotGit <:+ r.data) :
    parseGitUrl ("https://github.com/" ++ o ++ "/" ++ r ++ ".git") =
      some ⟨o, r⟩ := by
  have hdata : ("https://github.com/" ++ o ++ "/" ++ r ++ ".git").data =
      'h' :: 't' :: 't' :: 'p' :: 's' :: ':' :: '/' :: '/' ::
        (ghHost ++ '/' :: (o.data ++ '/' :: (r.data ++ dotGit))) := by
    rw [dataAppend5]
    rfl
  have h1 : tryP1At (ghHost ++ '/' :: (o.data ++ '/' :: (r.data ++ dotGit))) =
      some ⟨o, r⟩ := by
    rw [tryP1At_match '/' (Or.inl rfl) o.data (r.data ++ dotGit) ho ho2
      (by simp [dotGit]) (slash_not_mem_append_dotGit r.data hr2)]
    rw [lazyGit_append_dotGit r.data hr, stripGit_of_not_suffix r.data hr3]
  have hs1 : scanP1 ("https://github.com/" ++ o ++ "/" ++ r ++ ".git").data =
      some ⟨o, r⟩ := by
    rw [hdata]
    rw [scanP1_peel _ (by decide), scanP1_peel _ (by decide),
        scanP1_peel _ (by decide), scanP1_peel _ (by decide),
        scanP1_peel _ (by decide), scanP1_peel _ (by decide),
        scanP1_peel _ (by decide), scanP1_peel _ (by decide)]
    exact scanP1_of_tryP1At _ _ (by simp [ghHost]) h1
  unfold parseGitUrl
  rw [hs1]

theorem parseGitUrl_ssh (o r : String) (ho : o.data ≠ [])
    (ho2 : '/' ∉ o.data) (hr : r.data ≠ []) (hr2 : '/' ∉ r.data)
    (hr3 : ¬ dotGit <:+ r.data) :
    parseGitUrl ("git@github.com:" ++ o ++ "/" ++ r ++ ".git") =
      some ⟨o, r⟩ := by
  have hdata : ("git@github.com:" ++ o ++ "/" ++ r ++ ".git").data =
      'g' :: 'i' :: 't' :: '@' ::
        (ghHost ++ ':' :: (o.data ++ '/' :: (r.data ++ dotGit))) := by
    rw [dataAppend5]
    rfl
  have hch : (('h' : Char) == '@') = false := by decide
  have h0 : tryP1At ('g' :: 'i' :: 't' :: '@' ::
      (ghHost ++ ':' :: (o.data ++ '/' :: (r.data ++ dotGit)))) = none := by
    have hp : ghHost.isPrefixOf ('g' :: 'i' :: 't' :: '@' ::
        (ghHost ++ ':' :: (o.data ++ '/' :: (r.data ++ dotGit)))) = false := by
      simp [ghHost, List.isPrefixOf, hch]
    simp [tryP1At, hp]
  have h1 : tryP1At (ghHost ++ ':' :: (o.data ++ '/' :: (r.data ++ dotGit))) =
      some ⟨o, r⟩ := by
    rw [tryP1At_match ':' (Or.inr rfl) o.data (r.data ++ dotGit) ho ho2
      (by simp [dotGit]) (slash_not_mem_append_dotGit r.data hr2)]
    rw [lazyGit_append_dotGit r.data hr, stripGit_of_not_suffix r.data hr3]
  have hs1 : scanP1 ("git@github.com:" ++ o ++ "/" ++ r ++ ".git").data =
      some ⟨o, r⟩ := by
    rw [hdata]
    rw [scanP1_cons_none _ _ h0, scanP1_peel _ (by decide),
        scanP1_peel _ (by decide), scanP1_peel _ (by decide)]
    exact scanP1_of_tryP1At _ _ (by simp [ghHost]) h1
  unfold parseGitUrl
  rw [hs1]

theorem parseGitUrl_bare (o r : String) (ho : o.data ≠ [])
    (ho2 : '/' ∉ o.data) (hr : r.data ≠ []) (hr2 : '/' ∉ r.data)
    (hr3 : ¬ dotGit <:+ r.data) :
    parseGitUrl ("https://github.com/" ++ o ++ "/" ++ r) = some ⟨o, r⟩ := by
  have hdata : ("https://github.com/" ++ o ++ "/" ++ r).data =
      'h' :: 't' :: 't' :: 'p' :: 's' :: ':' :: '/' :: '/' ::
        (ghHost ++ '/' :: (o.data ++ '/' :: r.data)) := by
    have : ("https://github.com/" ++ o ++ "/" ++ r).data =
        "https://github.com/".data ++ (o.data ++ ("/".data ++ r.data)) := by
      simp only [String.data_append, List.append_assoc]
    rw [this]
    rfl
  have h1 : tryP1At (ghHost ++ '/' :: (o.data ++ '/' :: r.data)) =
      some ⟨o, r⟩ := by
    rw [tryP1At_match '/' (Or.inl rfl) o.data r.data ho ho2 hr hr2]
    rw [lazyGit_of_not_suffix r.data hr3, stripGit_of_not_suffix r.data hr3]
  have hs1 : scanP1 ("https://github.com/" ++ o ++ "/" ++ r).data =
      some ⟨o, r⟩ := by
    rw [hdata]
    rw [scanP1_peel _ (by decide), scanP1_peel _ (by decide),
        scanP1_peel _ (by decide), scanP1_peel _ (by decide),
        scanP1_peel _ (by decide), scanP1_peel _ (by decide),
        scanP1_peel _ (by decide), scanP1_peel _ (by decide)]
    exact scanP1_of_tryP1At _ _ (by simp [ghHost]) h1
  unfold parseGitUrl
  rw [hs1]

theorem scanP1_none_of_not_infix (l : List Char) (h : ¬ ghHost <:+: l) :
    scanP1 l = none := by
  induction l with
  | nil => rfl
  | cons c l ih =>
      have h1 : tryP1At (c :: l) = none := by
        cases hp : ghHost.isPrefixOf (c :: l) with
        | false => simp [tryP1At, hp]
        | true => exact absurd (List.isPrefixOf_iff_prefix.mp hp).isInfix h
      rw [scanP1_cons_none c l h1]
      exact ih fun hi => h (List.infix_cons hi)

theorem scanP2_none_of_not_infix (l : List Char) (h : ¬ ghHost <:+: l) :
    scanP2 l = none := by
  induction l with
  | nil => rfl
  | cons c l ih =>
      have h1 : tryP2At (c :: l) = none := by
        cases hp : sshLit.isPrefixOf (c :: l) with
        | false => simp [tryP2At, hp]
        | true =>
            have hinf : ghHost <:+: sshLit := ⟨['g', 'i', 't', '@'], [':'], rfl⟩
            exact absurd
              (hinf.trans (List.isPrefixOf_iff_prefix.mp hp).isInfix) h
      have h2 : scanP2 (c :: l) = scanP2 l := by simp [scanP2, h1]
      rw [h2]
      exact ih fun hi => h (List.infix_cons hi)

theorem scanP3_none_of_not_infix (l : List Char) (h : ¬ ghHost <:+: l) :
    scanP3 l = none := by
  induction l with
  | nil => rfl
  | cons c l ih =>
      have h1 : tryP3At (c :: l) = none := by
        cases hp : webLit.isPrefixOf (c :: l) with
        | false => simp [tryP3At, hp]
        | true =>
            have hinf : ghHost <:+: webLit := ⟨[], ['/'], rfl⟩
            exact absurd
              (hinf.trans (List.isPrefixOf_iff_prefix.mp hp).isInfix) h
      have h2 : scanP3 (c :: l) = scanP3 l := by simp [scanP3, h1]
      rw [h2]
      exact ih fun hi => h (List.infix_cons hi)

theorem parseGitUrl_none_of_no_host (url : String)
    (h : ¬ ghHost <:+: url.data) : parseGitUrl url = none := by
  simp [parseGitUrl, scanP1_none_of_not_infix _ h,
    scanP2_none_of_not_infix _ h, scanP3_none_of_not_infix _ h]

/-- The three documented hosting-service URL shapes of the claim (browse
form, SSH form, bare web form), with nonempty slash-free owner and repo
segments; stated from the words of the claim for comparison with
`parseGitUrl`. -/
def specUrlForms (s : String) : Prop :=
  ∃ o r : String, o.data ≠ [] ∧ '/' ∉ o.data ∧ r.data ≠ [] ∧ '/' ∉ r.data ∧
    (s = "https://github.com/" ++ o ++ "/" ++ r ++ ".git" ∨
     s = "git@github.com:" ++ o ++ "/" ++ r ++ ".git" ∨
     s = "https://github.com/" ++ o ++ "/" ++ r)

theorem data_getElem_left5 (a o b r c : String) (n : Nat)
    (hn : n < a.data.length) :
    (a ++ o ++ b ++ r ++ c).data[n]? = a.data[n]? := by
  rw [dataAppend5]
  exact List.getElem?_append_left hn

theorem data_getElem_left4 (a o b r : String) (n : Nat)
    (hn : n < a.data.length) :
    (a ++ o ++ b ++ r).data[n]? = a.data[n]? := by
  simp only [String.data_append, List.append_assoc]
  exact List.getElem?_append_left hn

/-- C7, counterexample: `github.com/a/b` is none of the three documented
URL forms (it has no scheme and no `git@` head), yet `parseGitUrl`
recovers `{a, b}` from it rather than the invalid-location outcome. -/
theorem C7_counterexample :
    parseGitUrl "github.com/a/b" = some ⟨"a", "b"⟩ ∧
      ¬ specUrlForms "github.com/a/b" := by
  refine ⟨by decide, ?_⟩
  rintro ⟨o, r, ho, ho2, hr, hr2, h | h | h⟩
  · have h0 := congrArg (fun s : String => s.data[0]?) h
    simp only at h0
    rw [data_getElem_left5 "https://github.com/" o "/" r ".git" 0
      (by decide)] at h0
    exact absurd h0 (by decide)
  · have h0 := congrArg (fun s : String => s.data[3]?) h
    simp only at h0
    rw [data_getElem_left5 "git@github.com:" o "/" r ".git" 3
      (by decide)] at h0
    exact absurd h0 (by decide)
  · have h0 := congrArg (fun s : String => s.data[0]?) h
    simp only at h0
    rw [data_getElem_left4 "https://github.com/" o "/" r 0 (by decide)] at h0
    exact absurd h0 (by decide)

/-- C7 (amended): for every hosting-service URL in browse, SSH, or bare
web form — owner and repo nonempty and slash-free, repo not itself ending
in `.git` — `parseGitUrl` recovers the correct `{owner, repo}` pair with
the trailing `.git` stripped; every string not containing `github.com`
yields the invalid-location outcome, `parseGitUrl` returning none and
`cloneRepository` failing with the invalid-URL error (strings outside the
three forms that do contain a `github.com`-shaped tail may still parse,
per the counterexample). -/
theorem C7_parseGitUrl (o r s url : String) (env : CloneEnv)
    (b : Option String) (ho : o.data ≠ []) (ho2 : '/' ∉ o.data)
    (hr : r.data ≠ []) (hr2 : '/' ∉ r.data) (hr3 : ¬ dotGit <:+ r.data)
    (hs : ¬ ghHost <:+: s.data) (hurl : parseGitUrl url = none) :
    parseGitUrl ("https://github.com/" ++ o ++ "/" ++ r ++ ".git") =
        some ⟨o, r⟩ ∧
    parseGitUrl ("git@github.com:" ++ o ++ "/" ++ r ++ ".git") =
        some ⟨o, r⟩ ∧
    parseGitUrl ("https://github.com/" ++ o ++ "/" ++ r) = some ⟨o, r⟩ ∧
    parseGitUrl s = none ∧
    (cloneRepository env url b).1 = .error ("Invalid GitHub URL: " ++ url ++
      ". Only GitHub repositories are supported.") := by
  refine ⟨parseGitUrl_browse o r ho ho2 hr hr2 hr3,
    parseGitUrl_ssh o r ho ho2 hr hr2 hr3,
    parseGitUrl_bare o r ho ho2 hr hr2 hr3,
    parseGitUrl_none_of_no_host s hs, ?_⟩
  simp [cloneRepository, hurl]

/-- C7, witness: the theorem applied at concrete inputs. -/
theorem C7_witness :
    parseGitUrl "https://github.com/acme/widget.git" =
        some ⟨"acme", "widget"⟩ ∧
    parseGitUrl "git@github.com:acme/widget.git" = some ⟨"acme", "widget"⟩ ∧
    parseGitUrl "https://github.com/acme/widget" = some ⟨"acme", "widget"⟩ ∧
    parseGitUrl "https://gitlab.example/x/y" = none ∧
    (cloneRepository cloneEnvOk "not a url" none).1 =
      .error ("Invalid GitHub URL: not a url" ++
        ". Only GitHub repositories are supported.") :=
  C7_parseGitUrl "acme" "widget" "https://gitlab.example/x/y" "not a url"
    cloneEnvOk none (by decide) (by decide) (by decide) (by decide)
    (by decide) (by decide) (by decide)

/-! ## Creation-order infrastructure for `pushToGitHub` -/

/-- The dependency phase of a creation call (`none` for read lookups):
blobs before the tree, the tree before the commit, the commit before the
ref writes. -/
def callPhase : Call → Option Nat
  | .createBlob _ => some 0
  | .createTree _ _ => some 1
  | .createCommit _ _ _ => some 2
  | .updateRef _ _ => some 3
  | .createRef _ _ => some 3
  | _ => none

/-- Whether a call is a tree creation. -/
def isTreeCall : Call → Bool
  | .createTree _ _ => true
  | _ => false

/-- Whether a call is a commit creation. -/
def isCommitCall : Call → Bool
  | .createCommit _ _ _ => true
  | _ => false

/-- Whether a call is a blob creation. -/
def isBlobCall : Call → Bool
  | .createBlob _ => true
  | _ => false

/-- Whether a call writes the branch ref (force update or creation). -/
def isRefWrite : Call → Bool
  | .updateRef _ _ => true
  | .createRef _ _ => true
  | _ => false

/-- The creation calls of a trace are in dependency order, and tree and
commit creation each happen at most once. -/
def orderedCreation (tr : List Call) : Prop :=
  List.Pairwise (· ≤ ·) (tr.filterMap callPhase) ∧
  tr.countP isTreeCall ≤ 1 ∧ tr.countP isCommitCall ≤ 1

theorem createBlobs_calls_blob (api : Api) (fs : List FileEntry) :
    ∀ c ∈ (createBlobs api fs).2, isBlobCall c = true := by
  induction fs with
  | nil => intro c hc; simp [createBlobs] at hc
  | cons f rest ih =>
      intro c hc
      cases hb : api.blob f.content with
      | error e =>
          simp only [createBlobs, hb] at hc
          simp only [List.mem_singleton] at hc
          subst hc; rfl
      | ok sha =>
          simp only [createBlobs, hb] at hc
          rcases List.mem_cons.mp hc with h | h
          · subst h; rfl
          · exact ih c h

theorem createBlobs_ok_length (api : Api) (fs : List FileEntry)
    (items : List TreeItem) (h : (createBlobs api fs).1 = .ok items) :
    (createBlobs api fs).2.length = fs.length := by
  induction fs generalizing items with
  | nil => simp [createBlobs]
  | cons f rest ih =>
      cases hb : api.blob f.content with
      | error e => simp [createBlobs, hb] at h
      | ok sha =>
          simp only [createBlobs, hb] at h ⊢
          cases hr : (createBlobs api rest).1 with
          | error pe => rw [hr] at h; simp [Except.map] at h
          | ok l =>
              simp only [List.length_cons]
              rw [ih l hr]

theorem pairwise_le_zeros_append (zeros rest : List Nat)
    (hz : ∀ x ∈ zeros, x = 0) (hrest : List.Pairwise (· ≤ ·) rest) :
    List.Pairwise (· ≤ ·) (zeros ++ rest) := by
  induction zeros with
  | nil => simpa
  | cons a l ih =>
      rw [List.cons_append, List.pairwise_cons]
      refine ⟨?_, ih fun x hx => hz x (List.mem_cons_of_mem a hx)⟩
      intro b _
      rw [hz a (List.mem_cons_self a l)]
      exact Nat.zero_le b

theorem blobs_phase_zero (calls : List Call)
    (h : ∀ c ∈ calls, isBlobCall c = true) :
    ∀ x ∈ calls.filterMap callPhase, x = 0 := by
  intro x hx
  rcases List.mem_filterMap.mp hx with ⟨c, hc, hphase⟩
  have hb := h c hc
  cases c with
  | createBlob s =>
      simp [callPhase] at hphase
      omega
  | getRef b => simp [isBlobCall] at hb
  | getCommit s => simp [isBlobCall] at hb
  | createTree b i => simp [isBlobCall] at hb
  | createCommit m t ps => simp [isBlobCall] at hb
  | updateRef b s => simp [isBlobCall] at hb
  | createRef b s => simp [isBlobCall] at hb

theorem blobs_countP_zero (calls : List Call) (p : Call → Bool)
    (h : ∀ c ∈ calls, isBlobCall c = true)
    (hp : ∀ s, p (.createBlob s) = false) :
    calls.countP p = 0 := by
  rw [List.countP_eq_zero]
  intro c hc
  have hb := h c hc
  cases c with
  | createBlob s => simp [hp]
  | getRef b => simp [isBlobCall] at hb
  | getCommit s => simp [isBlobCall] at hb
  | createTree b i => simp [isBlobCall] at hb
  | createCommit m t ps => simp [isBlobCall] at hb
  | updateRef b s => simp [isBlobCall] at hb
  | createRef b s => simp [isBlobCall] at hb

theorem blobs_countP_blob (calls : List Call)
    (h : ∀ c ∈ calls, isBlobCall c = true) :
    calls.countP isBlobCall = calls.length := by
  induction calls with
  | nil => rfl
  | cons c rest ih =>
      rw [List.countP_cons, h c (List.mem_cons_self c rest),
        ih fun x hx => h x (List.mem_cons_of_mem c hx)]
      simp

theorem reads_countP_zero (pre : List Call) (p : Call → Bool)
    (hpre : ∀ c ∈ pre, callPhase c = none)
    (hp : ∀ c, callPhase c = none → p c = false) :
    pre.countP p = 0 := by
  rw [List.countP_eq_zero]
  intro c hc
  simp [hp c (hpre c hc)]

theorem phase_none_tree (c : Call) (h : callPhase c = none) :
    isTreeCall c = false := by
  cases c <;> first | rfl | simp [callPhase] at h

theorem phase_none_commit (c : Call) (h : callPhase c = none) :
    isCommitCall c = false := by
  cases c <;> first | rfl | simp [callPhase] at h

theorem phase_none_blob (c : Call) (h : callPhase c = none) :
    isBlobCall c = false := by
  cases c <;> first | rfl | simp [callPhase] at h

theorem phase_none_ref (c : Call) (h : callPhase c = none) :
    isRefWrite c = false := by
  cases c <;> first | rfl | simp [callPhase] at h


theorem pushAfterBase_ordered (api : Api) (localDir : List FsEntry)
    (tb msg bs bt : String) (pre : List Call)
    (hpre : ∀ c ∈ pre, callPhase c = none)
    (r : PushResult) (tr : List Call)
    (heq : pushAfterBase api localDir tb msg bs bt pre = (r, tr)) :
    orderedCreation tr ∧
    (r.success = true →
      tr.countP isTreeCall = 1 ∧ tr.countP isCommitCall = 1 ∧
      tr.countP isBlobCall = (collectList localDir "").length ∧
      1 ≤ tr.countP isRefWrite) := by
  have hpreFM : pre.filterMap callPhase = [] :=
    List.filterMap_eq_nil_iff.mpr hpre
  have hpreT : pre.countP isTreeCall = 0 :=
    reads_countP_zero _ _ hpre phase_none_tree
  have hpreC : pre.countP isCommitCall = 0 :=
    reads_countP_zero _ _ hpre phase_none_commit
  have hpreB : pre.countP isBlobCall = 0 :=
    reads_countP_zero _ _ hpre phase_none_blob
  have hpreR : pre.countP isRefWrite = 0 :=
    reads_countP_zero _ _ hpre phase_none_ref
  cases hf : (collectList localDir "").isEmpty with
  | true =>
      simp only [pushAfterBase, hf, if_true] at heq
      obtain ⟨h1, h2⟩ := Prod.mk.inj heq
      subst h1; subst h2
      refine ⟨⟨by rw [hpreFM]; exact List.Pairwise.nil,
        by omega, by omega⟩, ?_⟩
      intro h; simp at h
  | false =>
      have hblob := createBlobs_calls_blob api (collectList localDir "")
      cases hcb : createBlobs api (collectList localDir "") with
      | mk res calls =>
        rw [hcb] at hblob
        have hz := blobs_phase_zero calls hblob
        have hcT : calls.countP isTreeCall = 0 :=
          blobs_countP_zero calls _ hblob fun s => rfl
        have hcC : calls.countP isCommitCall = 0 :=
          blobs_countP_zero calls _ hblob fun s => rfl
        have hcR : calls.countP isRefWrite = 0 :=
          blobs_countP_zero calls _ hblob fun s => rfl
        have hcBl : calls.countP isBlobCall = calls.length :=
          blobs_countP_blob calls hblob
        cases res with
        | error pe =>
            obtain ⟨p, e⟩ := pe
            simp only [pushAfterBase, hf, Bool.false_eq_true, if_false,
              hcb] at heq
            obtain ⟨h1, h2⟩ := Prod.mk.inj heq
            subst h1; subst h2
            refine ⟨⟨?_, ?_, ?_⟩, ?_⟩
            · rw [List.filterMap_append, hpreFM, List.nil_append]
              simpa using
                pairwise_le_zeros_append _ [] hz List.Pairwise.nil
            · rw [List.countP_append, hpreT, hcT]
              omega
            · rw [List.countP_append, hpreC, hcC]
              omega
            · intro h; simp at h
        | ok items =>
            have hlen : calls.length = (collectList localDir "").length := by
              have h0 := createBlobs_ok_length api (collectList localDir "")
                items (by rw [hcb])
              rwa [hcb] at h0
            cases ht : api.tree bt items with
            | error e =>
                simp only [pushAfterBase, hf, Bool.false_eq_true, if_false,
                  hcb, ht] at heq
                obtain ⟨h1, h2⟩ := Prod.mk.inj heq
                subst h1; subst h2
                refine ⟨⟨?_, ?_, ?_⟩, ?_⟩
                · have hcc : List.filterMap callPhase
                      (pre ++ calls ++ [Call.createTree bt items]) =
                      calls.filterMap callPhase ++ [1] := by
                    simp [List.filterMap_append, hpreFM, callPhase]
                  rw [hcc]
                  exact pairwise_le_zeros_append _ _ hz (by decide)
                · simp [List.countP_append, List.countP_cons, hpreT, hcT,
                    isTreeCall]
                · simp [List.countP_append, List.countP_cons, hpreC, hcC,
                    isCommitCall]
                · intro h; simp at h
            | ok treeSha =>
                cases hc : api.commit msg treeSha [bs] with
                | error e =>
                    simp only [pushAfterBase, hf, Bool.false_eq_true,
                      if_false, hcb, ht, hc] at heq
                    obtain ⟨h1, h2⟩ := Prod.mk.inj heq
                    subst h1; subst h2
                    refine ⟨⟨?_, ?_, ?_⟩, ?_⟩
                    · have hcc : List.filterMap callPhase
                          (pre ++ calls ++ [Call.createTree bt items,
                            Call.createCommit msg treeSha [bs]]) =
                          calls.filterMap callPhase ++ [1, 2] := by
                        simp [List.filterMap_append, hpreFM, callPhase]
                      rw [hcc]
                      exact pairwise_le_zeros_append _ _ hz (by decide)
                    · simp [List.countP_append, List.countP_cons, hpreT,
                        hcT, isTreeCall]
                    · simp [List.countP_append, List.countP_cons, hpreC,
                        hcC, isCommitCall]
                    · intro h; simp at h
                | ok commitSha =>
                    cases hu : api.updRef tb commitSha with
                    | true =>
                        simp only [pushAfterBase, hf, Bool.false_eq_true,
                          if_false, hcb, ht, hc, hu, if_true] at heq
                        obtain ⟨h1, h2⟩ := Prod.mk.inj heq
                        subst h1; subst h2
                        refine ⟨⟨?_, ?_, ?_⟩, ?_⟩
                        · have hcc : List.filterMap callPhase
                              (pre ++ calls ++ [Call.createTree bt items,
                                Call.createCommit msg treeSha [bs],
                                Call.updateRef tb commitSha]) =
                              calls.filterMap callPhase ++ [1, 2, 3] := by
                            simp [List.filterMap_append, hpreFM, callPhase]
                          rw [hcc]
                          exact pairwise_le_zeros_append _ _ hz (by decide)
                        · simp [List.countP_append, List.countP_cons, hpreT,
                            hcT, isTreeCall]
                        · simp [List.countP_append, List.countP_cons, hpreC,
                            hcC, isCommitCall]
                        · intro _
                          refine ⟨?_, ?_, ?_, ?_⟩
                          · simp [List.countP_append, List.countP_cons,
                              hpreT, hcT, isTreeCall]
                          · simp [List.countP_append, List.countP_cons,
                              hpreC, hcC, isCommitCall]
                          · simp [List.countP_append, List.countP_cons,
                              hpreB, hcBl, hlen, isBlobCall]
                          · simp [List.countP_append, List.countP_cons,
                              hpreR, hcR, isRefWrite]
                    | false =>
                        cases hcr : api.crtRef tb commitSha with
                        | ok u =>
                            simp only [pushAfterBase, hf, Bool.false_eq_true,
                              if_false, hcb, ht, hc, hu, hcr] at heq
                            obtain ⟨h1, h2⟩ := Prod.mk.inj heq
                            subst h1; subst h2
                            refine ⟨⟨?_, ?_, ?_⟩, ?_⟩
                            · have hcc : List.filterMap callPhase
                                  (pre ++ calls ++
                                    [Call.createTree bt items,
                                     Call.createCommit msg treeSha [bs],
                                     Call.updateRef tb commitSha,
                                     Call.createRef tb commitSha]) =
                                  calls.filterMap callPhase ++
                                    [1, 2, 3, 3] := by
                                simp [List.filterMap_append, hpreFM,
                                  callPhase]
                              rw [hcc]
                              exact pairwise_le_zeros_append _ _ hz
                                (by decide)
                            · simp [List.countP_append, List.countP_cons,
                                hpreT, hcT, isTreeCall]
                            · simp [List.countP_append, List.countP_cons,
                                hpreC, hcC, isCommitCall]
                            · intro _
                              refine ⟨?_, ?_, ?_, ?_⟩
                              · simp [List.countP_append, List.countP_cons,
                                  hpreT, hcT, isTreeCall]
                              · simp [List.countP_append, List.countP_cons,
                                  hpreC, hcC, isCommitCall]
                              · simp [List.countP_append, List.countP_cons,
                                  hpreB, hcBl, hlen, isBlobCall]
                              · simp [List.countP_append, List.countP_cons,
                                  hpreR, hcR, isRefWrite]
                        | error e =>
                            simp only [pushAfterBase, hf, Bool.false_eq_true,
                              if_false, hcb, ht, hc, hu, hcr] at heq
                            obtain ⟨h1, h2⟩ := Prod.mk.inj heq
                            subst h1; subst h2
                            refine ⟨⟨?_, ?_, ?_⟩, ?_⟩
                            · have hcc : List.filterMap callPhase
                                  (pre ++ calls ++
                                    [Call.createTree bt items,
                                     Call.createCommit msg treeSha [bs],
                                     Call.updateRef tb commitSha,
                                     Call.createRef tb commitSha]) =
                                  calls.filterMap callPhase ++
                                    [1, 2, 3, 3] := by
                                simp [List.filterMap_append, hpreFM,
                                  callPhase]
                              rw [hcc]
                              exact pairwise_le_zeros_append _ _ hz
                                (by decide)
                            · simp [List.countP_append, List.countP_cons,
                                hpreT, hcT, isTreeCall]
                            · simp [List.countP_append, List.countP_cons,
                                hpreC, hcC, isCommitCall]
                            · intro h; simp at h

theorem pushAfterBase_blobfail (api : Api) (localDir : List FsEntry)
    (tb msg bs bt : String) (pre : List Call)
    (hpre : ∀ c ∈ pre, callPhase c = none)
    (p e : String) (calls : List Call)
    (hcb : createBlobs api (collectList localDir "") = (.error (p, e), calls))
    (r : PushResult) (tr : List Call)
    (heq : pushAfterBase api localDir tb msg bs bt pre = (r, tr)) :
    r = ⟨false, some ("Failed to create blob for " ++ p ++ ": " ++ e)⟩ ∧
    tr.countP isTreeCall = 0 ∧ tr.countP isCommitCall = 0 ∧
    tr.countP isRefWrite = 0 := by
  have hne : (collectList localDir "").isEmpty = false := by
    cases hf : (collectList localDir "").isEmpty with
    | false => rfl
    | true =>
        have h0 : collectList localDir "" = [] := by
          cases hcl : collectList localDir "" with
          | nil => rfl
          | cons a l => rw [hcl] at hf; simp at hf
        rw [h0] at hcb
        simp [createBlobs] at hcb
  have hblob := createBlobs_calls_blob api (collectList localDir "")
  rw [hcb] at hblob
  simp only [pushAfterBase, hne, Bool.false_eq_true, if_false, hcb] at heq
  obtain ⟨h1, h2⟩ := Prod.mk.inj heq
  subst h1; subst h2
  refine ⟨rfl, ?_, ?_, ?_⟩
  · rw [List.countP_append, reads_countP_zero _ _ hpre phase_none_tree,
      blobs_countP_zero _ _ hblob fun s => rfl]
  · rw [List.countP_append, reads_countP_zero _ _ hpre phase_none_commit,
      blobs_countP_zero _ _ hblob fun s => rfl]
  · rw [List.countP_append, reads_countP_zero _ _ hpre phase_none_ref,
      blobs_countP_zero _ _ hblob fun s => rfl]

theorem pushAfterBase_files_empty (api : Api) (localDir : List FsEntry)
    (tb msg bs bt : String) (pre : List Call)
    (hf : collectList localDir "" = [])
    (r : PushResult) (tr : List Call)
    (heq : pushAfterBase api localDir tb msg bs bt pre = (r, tr)) :
    r = ⟨false, some "No files to upload"⟩ ∧ tr = pre := by
  simp only [pushAfterBase, hf, List.isEmpty_nil, if_true] at heq
  exact ⟨(Prod.mk.inj heq).1.symm, (Prod.mk.inj heq).2.symm⟩

theorem commit_not_in_reads (pre : List Call)
    (hpre : ∀ c ∈ pre, callPhase c = none) (m t : String) (ps : List String)
    (h : Call.createCommit m t ps ∈ pre) : False := by
  have h0 := hpre _ h
  simp [callPhase] at h0

theorem commit_not_in_blobs (calls : List Call)
    (hb : ∀ c ∈ calls, isBlobCall c = true) (m t : String) (ps : List String)
    (h : Call.createCommit m t ps ∈ calls) : False := by
  have h0 := hb _ h
  simp [isBlobCall] at h0

theorem pushAfterBase_commit_parents (api : Api) (localDir : List FsEntry)
    (tb msg bs bt : String) (pre : List Call)
    (hpre : ∀ c ∈ pre, callPhase c = none)
    (r : PushResult) (tr : List Call)
    (heq : pushAfterBase api localDir tb msg bs bt pre = (r, tr)) :
    ∀ m t ps, Call.createCommit m t ps ∈ tr → ps = [bs] := by
  intro m t ps hmem
  cases hf : (collectList localDir "").isEmpty with
  | true =>
      obtain ⟨-, h2⟩ := pushAfterBase_files_empty api localDir tb msg bs bt
        pre (by cases hcl : collectList localDir "" with
              | nil => rfl
              | cons a l => rw [hcl] at hf; simp at hf) r tr heq
      rw [h2] at hmem
      exact absurd hmem (fun h => commit_not_in_reads pre hpre m t ps h)
  | false =>
      have hblob := createBlobs_calls_blob api (collectList localDir "")
      cases hcb : createBlobs api (collectList localDir "") with
      | mk res calls =>
        rw [hcb] at hblob
        cases res with
        | error pe =>
            obtain ⟨p, e⟩ := pe
            simp only [pushAfterBase, hf, Bool.false_eq_true, if_false,
              hcb] at heq
            obtain ⟨h1, h2⟩ := Prod.mk.inj heq
            subst h1; subst h2
            rcases List.mem_append.mp hmem with h | h
            · exact absurd h fun h => commit_not_in_reads pre hpre m t ps h
            · exact absurd h fun h => commit_not_in_blobs calls hblob m t ps h
        | ok items =>
            cases ht : api.tree bt items with
            | error e =>
                simp only [pushAfterBase, hf, Bool.false_eq_true, if_false,
                  hcb, ht] at heq
                obtain ⟨h1, h2⟩ := Prod.mk.inj heq
                subst h1; subst h2
                rcases List.mem_append.mp hmem with h | h
                · rcases List.mem_append.mp h with h | h
                  · exact absurd h fun h =>
                      commit_not_in_reads pre hpre m t ps h
                  · exact absurd h fun h =>
                      commit_not_in_blobs calls hblob m t ps h
                · simp at h
            | ok treeSha =>
                cases hc : api.commit msg treeSha [bs] with
                | error e =>
                    simp only [pushAfterBase, hf, Bool.false_eq_true,
                      if_false, hcb, ht, hc] at heq
                    obtain ⟨h1, h2⟩ := Prod.mk.inj heq
                    subst h1; subst h2
                    rcases List.mem_append.mp hmem with h | h
                    · rcases List.mem_append.mp h with h | h
                      · exact absurd h fun h =>
                          commit_not_in_reads pre hpre m t ps h
                      · exact absurd h fun h =>
                          commit_not_in_blobs calls hblob m t ps h
                    · simp only [List.mem_cons, List.mem_singleton] at h
                      rcases h with h | h | h
                      · simp at h
                      · exact (Call.createCommit.inj h).2.2
                      · simp at h
                | ok commitSha =>
                    cases hu : api.updRef tb commitSha with
                    | true =>
                        simp only [pushAfterBase, hf, Bool.false_eq_true,
                          if_false, hcb, ht, hc, hu, if_true] at heq
                        obtain ⟨h1, h2⟩ := Prod.mk.inj heq
                        subst h1; subst h2
                        rcases List.mem_append.mp hmem with h | h
                        · rcases List.mem_append.mp h with h | h
                          · exact absurd h fun h =>
                              commit_not_in_reads pre hpre m t ps h
                          · exact absurd h fun h =>
                              commit_not_in_blobs calls hblob m t ps h
                        · simp only [List.mem_cons, List.mem_singleton] at h
                          rcases h with h | h | h | h
                          · simp at h
                          · exact (Call.createCommit.inj h).2.2
                          · simp at h
                          · simp at h
                    | false =>
                        cases hcr : api.crtRef tb commitSha with
                        | ok u =>
                            simp only [pushAfterBase, hf, Bool.false_eq_true,
                              if_false, hcb, ht, hc, hu, hcr] at heq
                            obtain ⟨h1, h2⟩ := Prod.mk.inj heq
                            subst h1; subst h2
                            rcases List.mem_append.mp hmem with h | h
                            · rcases List.mem_append.mp h with h | h
                              · exact absurd h fun h =>
                                  commit_not_in_reads pre hpre m t ps h
                              · exact absurd h fun h =>
                                  commit_not_in_blobs calls hblob m t ps h
                            · simp only [List.mem_cons,
                                List.mem_singleton] at h
                              rcases h with h | h | h | h | h
                              · simp at h
                              · exact (Call.createCommit.inj h).2.2
                              · simp at h
                              · simp at h
                              · simp at h
                        | error e =>
                            simp only [pushAfterBase, hf, Bool.false_eq_true,
                              if_false, hcb, ht, hc, hu, hcr] at heq
                            obtain ⟨h1, h2⟩ := Prod.mk.inj heq
                            subst h1; subst h2
                            rcases List.mem_append.mp hmem with h | h
                            · rcases List.mem_append.mp h with h | h
                              · exact absurd h fun h =>
                                  commit_not_in_reads pre hpre m t ps h
                              · exact absurd h fun h =>
                                  commit_not_in_blobs calls hblob m t ps h
                            · simp only [List.mem_cons,
                                List.mem_singleton] at h
                              rcases h with h | h | h | h | h
                              · simp at h
                              · exact (Call.createCommit.inj h).2.2
                              · simp at h
                              · simp at h
                              · simp at h

theorem pushAfterBase_trace_pre (api : Api) (localDir : List FsEntry)
    (tb msg bs bt : String) (pre : List Call)
    (r : PushResult) (tr : List Call)
    (heq : pushAfterBase api localDir tb msg bs bt pre = (r, tr)) :
    ∃ rest, tr = pre ++ rest := by
  cases hf : (collectList localDir "").isEmpty with
  | true =>
      simp only [pushAfterBase, hf, if_true] at heq
      exact ⟨[], by rw [← (Prod.mk.inj heq).2, List.append_nil]⟩
  | false =>
      cases hcb : createBlobs api (collectList localDir "") with
      | mk res calls =>
        cases res with
        | error pe =>
            obtain ⟨p, e⟩ := pe
            simp only [pushAfterBase, hf, Bool.false_eq_true, if_false,
              hcb] at heq
            exact ⟨calls, (Prod.mk.inj heq).2.symm⟩
        | ok items =>
            cases ht : api.tree bt items with
            | error e =>
                simp only [pushAfterBase, hf, Bool.false_eq_true, if_false,
                  hcb, ht] at heq
                exact ⟨calls ++ [Call.createTree bt items],
                  by rw [← (Prod.mk.inj heq).2, List.append_assoc]⟩
            | ok treeSha =>
                cases hc : api.commit msg treeSha [bs] with
                | error e =>
                    simp only [pushAfterBase, hf, Bool.false_eq_true,
                      if_false, hcb, ht, hc] at heq
                    exact ⟨calls ++ [Call.createTree bt items,
                      Call.createCommit msg treeSha [bs]],
                      by rw [← (Prod.mk.inj heq).2, List.append_assoc]⟩
                | ok commitSha =>
                    cases hu : api.updRef tb commitSha with
                    | true =>
                        simp only [pushAfterBase, hf, Bool.false_eq_true,
                          if_false, hcb, ht, hc, hu, if_true] at heq
                        exact ⟨calls ++ [Call.createTree bt items,
                          Call.createCommit msg treeSha [bs],
                          Call.updateRef tb commitSha],
                          by rw [← (Prod.mk.inj heq).2, List.append_assoc]⟩
                    | false =>
                        cases hcr : api.crtRef tb commitSha with
                        | ok u =>
                            simp only [pushAfterBase, hf, Bool.false_eq_true,
                              if_false, hcb, ht, hc, hu, hcr] at heq
                            exact ⟨calls ++ [Call.createTree bt items,
                              Call.createCommit msg treeSha [bs],
                              Call.updateRef tb commitSha,
                              Call.createRef tb commitSha],
                              by rw [← (Prod.mk.inj heq).2,
                                List.append_assoc]⟩
                        | error e =>
                            simp only [pushAfterBase, hf, Bool.false_eq_true,
                              if_false, hcb, ht, hc, hu, hcr] at heq
                            exact ⟨calls ++ [Call.createTree bt items,
                              Call.createCommit msg treeSha [bs],
                              Call.updateRef tb commitSha,
                              Call.createRef tb commitSha],
                              by rw [← (Prod.mk.inj heq).2,
                                List.append_assoc]⟩

theorem pre_reads_2 (b s : String) :
    ∀ c ∈ [Call.getRef b, Call.getCommit s], callPhase c = none := by
  intro c hc
  simp only [List.mem_cons, List.mem_singleton, List.not_mem_nil,
    or_false] at hc
  rcases hc with rfl | rfl <;> rfl

theorem pre_reads_3 (b s : String) :
    ∀ c ∈ [Call.getRef b, Call.getRef "main", Call.getCommit s],
      callPhase c = none := by
  intro c hc
  simp only [List.mem_cons, List.mem_singleton, List.not_mem_nil,
    or_false] at hc
  rcases hc with rfl | rfl | rfl <;> rfl

theorem pre_reads_4 (b s : String) :
    ∀ c ∈ [Call.getRef b, Call.getRef "main", Call.getRef "master",
      Call.getCommit s], callPhase c = none := by
  intro c hc
  simp only [List.mem_cons, List.mem_singleton, List.not_mem_nil,
    or_false] at hc
  rcases hc with rfl | rfl | rfl | rfl <;> rfl

/-- C1: in every run of `pushToGitHub`, the hosting-service creation calls
are issued in strict dependency order (all blobs, then at most one tree,
then at most one commit, then the ref writes); a successful run issues
exactly one tree and one commit call, one blob call per enumerated file,
and a ref write; and when a blob upload fails (with the base resolved),
the run fails with the blob-creation error naming the file, and no tree,
commit, or ref call is ever issued. -/
theorem C1_creationOrder (api : Api) (localDir : List FsEntry)
    (tb msg : String) (r : PushResult) (tr : List Call)
    (heq : pushToGitHub api localDir tb msg = (r, tr)) :
    orderedCreation tr ∧
    (r.success = true →
      tr.countP isTreeCall = 1 ∧ tr.countP isCommitCall = 1 ∧
      tr.countP isBlobCall = (collectList localDir "").length ∧
      1 ≤ tr.countP isRefWrite) ∧
    (∀ b p e calls, resolveBaseSha api tb = some b →
      createBlobs api (collectList localDir "") = (.error (p, e), calls) →
      r = ⟨false, some ("Failed to create blob for " ++ p ++ ": " ++ e)⟩ ∧
      tr.countP isTreeCall = 0 ∧ tr.countP isCommitCall = 0 ∧
      tr.countP isRefWrite = 0) := by
  cases h1 : api.refSha tb with
  | some s =>
      simp only [pushToGitHub, h1] at heq
      obtain ⟨ho, hs⟩ := pushAfterBase_ordered api localDir tb msg s
        (api.commitTree s) _ (pre_reads_2 tb s) r tr heq
      refine ⟨ho, hs, ?_⟩
      intro b p e calls hres hcb
      exact pushAfterBase_blobfail api localDir tb msg s (api.commitTree s)
        _ (pre_reads_2 tb s) p e calls hcb r tr heq
  | none =>
      cases h2 : api.refSha "main" with
      | some s =>
          simp only [pushToGitHub, h1, h2] at heq
          obtain ⟨ho, hs⟩ := pushAfterBase_ordered api localDir tb msg s
            (api.commitTree s) _ (pre_reads_3 tb s) r tr heq
          refine ⟨ho, hs, ?_⟩
          intro b p e calls hres hcb
          exact pushAfterBase_blobfail api localDir tb msg s
            (api.commitTree s) _ (pre_reads_3 tb s) p e calls hcb r tr heq
      | none =>
          cases h3 : api.refSha "master" with
          | some s =>
              simp only [pushToGitHub, h1, h2, h3] at heq
              obtain ⟨ho, hs⟩ := pushAfterBase_ordered api localDir tb msg s
                (api.commitTree s) _ (pre_reads_4 tb s) r tr heq
              refine ⟨ho, hs, ?_⟩
              intro b p e calls hres hcb
              exact pushAfterBase_blobfail api localDir tb msg s
                (api.commitTree s) _ (pre_reads_4 tb s) p e calls hcb r tr heq
          | none =>
              simp only [pushToGitHub, h1, h2, h3] at heq
              obtain ⟨hr, htr⟩ := Prod.mk.inj heq
              subst hr; subst htr
              refine ⟨⟨?_, by simp [List.countP_cons, isTreeCall],
                by simp [List.countP_cons, isCommitCall]⟩, ?_, ?_⟩
              · simp [callPhase]
              · intro h; simp at h
              · intro b p e calls hres hcb
                simp [resolveBaseSha, h1, h2, h3] at hres

/-- Oracle set whose blob creation always fails, used by the C1 witness. -/
def apiBlobFail : Api where
  refSha := fun b => if b = "main" then some "base0" else none
  commitTree := fun _ => "tree0"
  blob := fun _ => .error "boom"
  tree := fun _ _ => .ok "t1"
  commit := fun _ _ _ => .ok "c1"
  updRef := fun _ _ => true
  crtRef := fun _ _ => .ok ()

/-- Oracle set for a destination with no branch at all. -/
def apiNone : Api where
  refSha := fun _ => none
  commitTree := fun _ => "tree0"
  blob := fun c => .ok ("blob-" ++ c)
  tree := fun _ _ => .ok "tree1"
  commit := fun _ _ _ => .ok "commit1"
  updRef := fun _ _ => true
  crtRef := fun _ _ => .ok ()

/-- C1, witness: the theorem applied to a run whose single blob upload
fails. -/
theorem C1_witness :
    orderedCreation [Call.getRef "main", Call.getCommit "base0",
      Call.createBlob "A"] ∧
    ((⟨false, some "Failed to create blob for a.txt: boom"⟩ : PushResult) =
      ⟨false, some ("Failed to create blob for " ++ "a.txt" ++ ": " ++
        "boom")⟩ ∧
     List.countP isTreeCall [Call.getRef "main", Call.getCommit "base0",
       Call.createBlob "A"] = 0 ∧
     List.countP isCommitCall [Call.getRef "main", Call.getCommit "base0",
       Call.createBlob "A"] = 0 ∧
     List.countP isRefWrite [Call.getRef "main", Call.getCommit "base0",
       Call.createBlob "A"] = 0) := by
  have h := C1_creationOrder apiBlobFail [.file "a.txt" "A"] "main" "m"
    ⟨false, some "Failed to create blob for a.txt: boom"⟩
    [Call.getRef "main", Call.getCommit "base0", Call.createBlob "A"]
    (by decide)
  exact ⟨h.1, h.2.2 "base0" "a.txt" "boom" [Call.createBlob "A"]
    (by decide) rfl⟩

/-- C2: when the destination branch ref is missing, `pushToGitHub` probes
`main` and then `master`, in that order; and when neither exists it fails
with the no-base error having issued exactly the three ref lookups and no
blob, tree, or commit creation call. -/
theorem C2_baseProbe (api : Api) (localDir : List FsEntry) (tb msg : String)
    (r : PushResult) (tr : List Call)
    (heq : pushToGitHub api localDir tb msg = (r, tr))
    (hb : api.refSha tb = none) :
    tr.take 2 = [Call.getRef tb, Call.getRef "main"] ∧
    (api.refSha "main" = none →
      tr.take 3 = [Call.getRef tb, Call.getRef "main",
        Call.getRef "master"]) ∧
    (api.refSha "main" = none → api.refSha "master" = none →
      r = ⟨false, some "Could not find any branch to base commit on"⟩ ∧
      tr = [Call.getRef tb, Call.getRef "main", Call.getRef "master"] ∧
      tr.countP isBlobCall = 0 ∧ tr.countP isTreeCall = 0 ∧
      tr.countP isCommitCall = 0) := by
  cases h2 : api.refSha "main" with
  | some s =>
      simp only [pushToGitHub, hb, h2] at heq
      obtain ⟨rest, hrest⟩ := pushAfterBase_trace_pre api localDir tb msg s
        (api.commitTree s)
        [Call.getRef tb, Call.getRef "main", Call.getCommit s] r tr heq
      subst hrest
      refine ⟨rfl, ?_, ?_⟩
      · intro h; exact absurd h (by simp)
      · intro h _; exact absurd h (by simp)
  | none =>
      cases h3 : api.refSha "master" with
      | some s =>
          simp only [pushToGitHub, hb, h2, h3] at heq
          obtain ⟨rest, hrest⟩ := pushAfterBase_trace_pre api localDir tb
            msg s (api.commitTree s)
            [Call.getRef tb, Call.getRef "main", Call.getRef "master",
             Call.getCommit s] r tr heq
          subst hrest
          refine ⟨rfl, fun _ => rfl, ?_⟩
          intro _ h; exact absurd h (by simp)
      | none =>
          simp only [pushToGitHub, hb, h2, h3] at heq
          obtain ⟨hr, htr⟩ := Prod.mk.inj heq
          subst hr; subst htr
          refine ⟨rfl, fun _ => rfl, fun _ _ => ⟨rfl, rfl, ?_, ?_, ?_⟩⟩
          · simp [List.countP_cons, isBlobCall]
          · simp [List.countP_cons, isTreeCall]
          · simp [List.countP_cons, isCommitCall]

/-- C2, witness: the theorem applied to a destination with no branch. -/
theorem C2_witness :
    [Call.getRef "feature", Call.getRef "main",
      Call.getRef "master"].take 2 =
      [Call.getRef "feature", Call.getRef "main"] ∧
    ((⟨false, some "Could not find any branch to base commit on"⟩ :
        PushResult) =
      ⟨false, some "Could not find any branch to base commit on"⟩ ∧
     [Call.getRef "feature", Call.getRef "main", Call.getRef "master"] =
       [Call.getRef "feature", Call.getRef "main", Call.getRef "master"] ∧
     List.countP isBlobCall [Call.getRef "feature", Call.getRef "main",
       Call.getRef "master"] = 0 ∧
     List.countP isTreeCall [Call.getRef "feature", Call.getRef "main",
       Call.getRef "master"] = 0 ∧
     List.countP isCommitCall [Call.getRef "feature", Call.getRef "main",
       Call.getRef "master"] = 0) := by
  have h := C2_baseProbe apiNone [.file "a.txt" "A"] "feature" "m"
    ⟨false, some "Could not find any branch to base commit on"⟩
    [Call.getRef "feature", Call.getRef "main", Call.getRef "master"]
    (by decide) (by decide)
  exact ⟨h.1, h.2.2 (by decide) (by decide)⟩

/-- C3: every commit creation call issued by `pushToGitHub` carries
exactly one parent, the resolved base commit; and when no base branch is
discoverable, no commit creation call is issued at all. -/
theorem C3_commitParents (api : Api) (localDir : List FsEntry)
    (tb msg : String) (r : PushResult) (tr : List Call)
    (heq : pushToGitHub api localDir tb msg = (r, tr)) :
    (∀ m t ps, Call.createCommit m t ps ∈ tr →
      ∃ b, resolveBaseSha api tb = some b ∧ ps = [b]) ∧
    (resolveBaseSha api tb = none →
      ∀ m t ps, Call.createCommit m t ps ∉ tr) := by
  cases h1 : api.refSha tb with
  | some s =>
      simp only [pushToGitHub, h1] at heq
      have hp := pushAfterBase_commit_parents api localDir tb msg s
        (api.commitTree s) _ (pre_reads_2 tb s) r tr heq
      refine ⟨fun m t ps hm =>
        ⟨s, by simp [resolveBaseSha, h1], hp m t ps hm⟩, ?_⟩
      intro hres
      simp [resolveBaseSha, h1] at hres
  | none =>
      cases h2 : api.refSha "main" with
      | some s =>
          simp only [pushToGitHub, h1, h2] at heq
          have hp := pushAfterBase_commit_parents api localDir tb msg s
            (api.commitTree s) _ (pre_reads_3 tb s) r tr heq
          refine ⟨fun m t ps hm =>
            ⟨s, by simp [resolveBaseSha, h1, h2], hp m t ps hm⟩, ?_⟩
          intro hres
          simp [resolveBaseSha, h1, h2] at hres
      | none =>
          cases h3 : api.refSha "master" with
          | some s =>
              simp only [pushToGitHub, h1, h2, h3] at heq
              have hp := pushAfterBase_commit_parents api localDir tb msg s
                (api.commitTree s) _ (pre_reads_4 tb s) r tr heq
              refine ⟨fun m t ps hm =>
                ⟨s, by simp [resolveBaseSha, h1, h2, h3], hp m t ps hm⟩, ?_⟩
              intro hres
              simp [resolveBaseSha, h1, h2, h3] at hres
          | none =>
              simp only [pushToGitHub, h1, h2, h3] at heq
              obtain ⟨hr, htr⟩ := Prod.mk.inj heq
              subst hr; subst htr
              refine ⟨?_, ?_⟩
              · intro m t ps hm; simp at hm
              · intro _ m t ps hm; simp at hm

/-- C3, witness: a successful run whose commit call carries the resolved
base as sole parent, and a no-base run with no commit call. -/
theorem C3_witness :
    (∃ b, resolveBaseSha apiOk "main" = some b ∧ ["base0"] = [b]) ∧
    Call.createCommit "m" "t" ["p"] ∉
      [Call.getRef "q", Call.getRef "main", Call.getRef "master"] := by
  have h1 := C3_commitParents apiOk [.file "a.txt" "A"] "main" "msg"
    ⟨true, none⟩
    [Call.getRef "main", Call.getCommit "base0", Call.createBlob "A",
     Call.createTree "tree0" [⟨"a.txt", "blob-A"⟩],
     Call.createCommit "msg" "tree1" ["base0"],
     Call.updateRef "main" "commit1"] (by decide)
  have h2 := C3_commitParents apiNone [.file "a.txt" "A"] "q" "m"
    ⟨false, some "Could not find any branch to base commit on"⟩
    [Call.getRef "q", Call.getRef "main", Call.getRef "master"] (by decide)
  exact ⟨h1.1 "msg" "tree1" ["base0"] (by decide),
    h2.2 (by decide) "m" "t" ["p"]⟩

/-- C10: when the recursive enumeration (which skips the `skipDirs`
directories and `skipFiles` files) yields no files and a base branch was
resolved, `pushToGitHub` fails with the no-files error after the base
lookups and before any blob, tree, commit, or ref creation call. -/
theorem C10_noFiles (api : Api) (localDir : List FsEntry) (tb msg : String)
    (r : PushResult) (tr : List Call)
    (heq : pushToGitHub api localDir tb msg = (r, tr))
    (b : String) (hres : resolveBaseSha api tb = some b)
    (hfiles : collectList localDir "" = []) :
    r = ⟨false, some "No files to upload"⟩ ∧
    Call.getCommit b ∈ tr ∧
    tr.countP isBlobCall = 0 ∧ tr.countP isTreeCall = 0 ∧
    tr.countP isCommitCall = 0 ∧ tr.countP isRefWrite = 0 := by
  cases h1 : api.refSha tb with
  | some s =>
      have hbs : b = s := by
        simp [resolveBaseSha, h1] at hres
        exact hres.symm
      subst hbs
      simp only [pushToGitHub, h1] at heq
      obtain ⟨hr, htr⟩ := pushAfterBase_files_empty api localDir tb msg b
        (api.commitTree b) [Call.getRef tb, Call.getCommit b] hfiles r tr
        heq
      subst hr; subst htr
      refine ⟨rfl, by simp, ?_, ?_, ?_, ?_⟩
      · simp [List.countP_cons, isBlobCall]
      · simp [List.countP_cons, isTreeCall]
      · simp [List.countP_cons, isCommitCall]
      · simp [List.countP_cons, isRefWrite]
  | none =>
      cases h2 : api.refSha "main" with
      | some s =>
          have hbs : b = s := by
            simp [resolveBaseSha, h1, h2] at hres
            exact hres.symm
          subst hbs
          simp only [pushToGitHub, h1, h2] at heq
          obtain ⟨hr, htr⟩ := pushAfterBase_files_empty api localDir tb msg
            b (api.commitTree b)
            [Call.getRef tb, Call.getRef "main", Call.getCommit b] hfiles
            r tr heq
          subst hr; subst htr
          refine ⟨rfl, by simp, ?_, ?_, ?_, ?_⟩
          · simp [List.countP_cons, isBlobCall]
          · simp [List.countP_cons, isTreeCall]
          · simp [List.countP_cons, isCommitCall]
          · simp [List.countP_cons, isRefWrite]
      | none =>
          cases h3 : api.refSha "master" with
          | some s =>
              have hbs : b = s := by
                simp [resolveBaseSha, h1, h2, h3] at hres
                exact hres.symm
              subst hbs
              simp only [pushToGitHub, h1, h2, h3] at heq
              obtain ⟨hr, htr⟩ := pushAfterBase_files_empty api localDir tb
                msg b (api.commitTree b)
                [Call.getRef tb, Call.getRef "main", Call.getRef "master",
                 Call.getCommit b] hfiles r tr heq
              subst hr; subst htr
              refine ⟨rfl, by simp, ?_, ?_, ?_, ?_⟩
              · simp [List.countP_cons, isBlobCall]
              · simp [List.countP_cons, isTreeCall]
              · simp [List.countP_cons, isCommitCall]
              · simp [List.countP_cons, isRefWrite]
          | none =>
              simp [resolveBaseSha, h1, h2, h3] at hres

/-- C10, witness: a workspace holding only an excluded `.git` directory. -/
theorem C10_witness :
    (⟨false, some "No files to upload"⟩ : PushResult) =
      ⟨false, some "No files to upload"⟩ ∧
    Call.getCommit "base0" ∈ [Call.getRef "main", Call.getCommit "base0"] ∧
    List.countP isBlobCall [Call.getRef "main", Call.getCommit "base0"] =
      0 ∧
    List.countP isTreeCall [Call.getRef "main", Call.getCommit "base0"] =
      0 ∧
    List.countP isCommitCall [Call.getRef "main", Call.getCommit "base0"] =
      0 ∧
    List.countP isRefWrite [Call.getRef "main", Call.getCommit "base0"] =
      0 :=
  C10_noFiles apiOk [.dir ".git" [.file "config" "x"]] "main" "m"
    ⟨false, some "No files to upload"⟩
    [Call.getRef "main", Call.getCommit "base0"] (by decide) "base0"
    (by decide) (by decide)

/-! ## Lemmas about the file materializer -/

theorem lookupTop_writeTop_self (ws : List FsEntry) (n c : String) :
    lookupTop (writeTop ws n c) n = some (.file n c) := by
  induction ws with
  | nil =>
      simp only [writeTop, lookupTop]
      rw [List.find?_cons_of_pos _ (by simp [FsEntry.name])]
  | cons e rest ih =>
      by_cases h : e.name = n
      · simp only [writeTop, if_pos h, lookupTop]
        rw [List.find?_cons_of_pos _ (by simp [FsEntry.name])]
      · simp only [writeTop, if_neg h, lookupTop]
        rw [List.find?_cons_of_neg _ (by simp [h])]
        exact ih

theorem lookupTop_writeTop_ne (ws : List FsEntry) (n c m : String)
    (h : m ≠ n) : lookupTop (writeTop ws n c) m = lookupTop ws m := by
  induction ws with
  | nil =>
      simp only [writeTop, lookupTop]
      rw [List.find?_cons_of_neg _
        (by simp [FsEntry.name]; exact fun hq => h hq.symm)]
  | cons e rest ih =>
      by_cases he : e.name = n
      · simp only [writeTop, if_pos he, lookupTop]
        rw [List.find?_cons_of_neg _
            (by simp [FsEntry.name]; exact fun hq => h hq.symm),
          List.find?_cons_of_neg _
            (by simp [he]; exact fun hq => h hq.symm)]
      · simp only [writeTop, if_neg he, lookupTop]
        by_cases hem : e.name = m
        · rw [List.find?_cons_of_pos _ (by simp [hem]),
            List.find?_cons_of_pos _ (by simp [hem])]
        · rw [List.find?_cons_of_neg _ (by simp [hem]),
            List.find?_cons_of_neg _ (by simp [hem])]
          exact ih

theorem existsTop_writeTop_mono (ws : List FsEntry) (n c m : String)
    (h : existsTop ws m = true) : existsTop (writeTop ws n c) m = true := by
  induction ws with
  | nil => simp [existsTop] at h
  | cons e rest ih =>
      simp only [existsTop, List.any_cons, Bool.or_eq_true] at h
      by_cases he : e.name = n
      · simp only [writeTop, if_pos he, existsTop, List.any_cons,
          Bool.or_eq_true]
        rcases h with h | h
        · left
          have hnm : n = m := by rw [← he]; exact (by simpa using h)
          simp [FsEntry.name, hnm]
        · right; exact h
      · simp only [writeTop, if_neg he, existsTop, List.any_cons,
          Bool.or_eq_true]
        rcases h with h | h
        · left; exact h
        · right; exact ih h

theorem existsTop_false_ne (ws : List FsEntry) (n m : String)
    (hn : existsTop ws n = false) (hm : existsTop ws m = true) : m ≠ n := by
  intro h
  rw [h] at hm
  rw [hm] at hn
  cases hn

theorem existsTop_of_lookupTop (ws : List FsEntry) (m : String)
    (h : existsTop ws m = false) : lookupTop ws m = none := by
  induction ws with
  | nil => rfl
  | cons e rest ih =>
      simp only [existsTop, List.any_cons, Bool.or_eq_false_iff] at h
      simp only [lookupTop]
      rw [List.find?_cons_of_neg _ (by simp [h.1])]
      exact ih h.2

theorem materialize_core (files : List (String × Option String)) :
    ∀ ws : List FsEntry,
      (∀ m, existsTop ws m = true →
        lookupTop (materialize ws files false).2.2 m = lookupTop ws m ∧
        existsTop (materialize ws files false).2.2 m = true) ∧
      ((materialize ws files false).1 ++
        (materialize ws files false).2.1).Perm
        ((files.filter fun e => !falsyContent e.2).map Prod.fst) ∧
      (∀ m, lookupTop (materialize ws files false).2.2 m ≠ lookupTop ws m →
        m ∈ (materialize ws files false).1) := by
  induction files with
  | nil =>
      intro ws
      refine ⟨fun m h => ⟨rfl, h⟩, by simp [materialize], ?_⟩
      intro m h
      exact absurd rfl h
  | cons f rest ih =>
      intro ws
      obtain ⟨name, content⟩ := f
      cases content with
      | none =>
          simpa [materialize, falsyContent] using ih ws
      | some c =>
          by_cases hc : c = ""
          · simpa [materialize, hc, falsyContent] using ih ws
          · have hfil :
                (((name, some c) :: rest).filter
                  fun e => !falsyContent e.2) =
                (name, some c) ::
                  (rest.filter fun e => !falsyContent e.2) := by
              simp [List.filter_cons, falsyContent, hc]
            by_cases hex : existsTop ws name = true
            · have hsk : materialize ws ((name, some c) :: rest) false =
                  ((materialize ws rest false).1,
                   name :: (materialize ws rest false).2.1,
                   (materialize ws rest false).2.2) := by
                simp [materialize, hc, hex]
              obtain ⟨ih1, ih2, ih3⟩ := ih ws
              rw [hsk]
              refine ⟨fun m hm => ih1 m hm, ?_, fun m hm => ih3 m hm⟩
              rw [hfil, List.map_cons]
              exact List.perm_middle.trans (ih2.cons name)
            · have hex2 : existsTop ws name = false := by
                simpa using hex
              have hwr : materialize ws ((name, some c) :: rest) false =
                  (name ::
                    (materialize (writeTop ws name c) rest false).1,
                   (materialize (writeTop ws name c) rest false).2.1,
                   (materialize (writeTop ws name c) rest false).2.2) := by
                simp [materialize, hc, hex2]
              obtain ⟨ih1, ih2, ih3⟩ := ih (writeTop ws name c)
              rw [hwr]
              refine ⟨?_, ?_, ?_⟩
              · intro m hm
                have hmn : m ≠ name :=
                  existsTop_false_ne ws name m hex2 hm
                obtain ⟨hl, he⟩ :=
                  ih1 m (existsTop_writeTop_mono ws name c m hm)
                exact ⟨hl.trans (lookupTop_writeTop_ne ws name c m hmn),
                  he⟩
              · rw [hfil, List.map_cons]
                exact ih2.cons name
              · intro m hm
                by_cases hmn : m = name
                · exact hmn ▸ List.mem_cons_self _ _
                · have hW : lookupTop (writeTop ws name c) m =
                      lookupTop ws m :=
                    lookupTop_writeTop_ne ws name c m hmn
                  by_cases hd :
                      lookupTop
                        (materialize (writeTop ws name c) rest
                          false).2.2 m =
                      lookupTop (writeTop ws name c) m
                  · exact absurd (hd.trans hW) hm
                  · exact List.mem_cons_of_mem _ (ih3 m hd)

theorem nodup_keys_eq {α β : Type} [DecidableEq α]
    (l : List (α × β)) (h : (l.map Prod.fst).Nodup)
    (a : α) (b1 b2 : β) (h1 : (a, b1) ∈ l) (h2 : (a, b2) ∈ l) : b1 = b2 := by
  induction l with
  | nil => simp at h1
  | cons e rest ih =>
      simp only [List.map_cons, List.nodup_cons] at h
      rcases List.mem_cons.mp h1 with he1 | he1 <;>
        rcases List.mem_cons.mp h2 with he2 | he2
      · rw [← he2] at he1
        exact (Prod.mk.inj he1).2
      · exfalso
        apply h.1
        rw [← he1]
        exact List.mem_map.mpr ⟨(a, b2), he2, rfl⟩
      · exfalso
        apply h.1
        rw [← he2]
        exact List.mem_map.mpr ⟨(a, b1), he1, rfl⟩
      · exact ih h.2 he1 he2

/-- C4: with overwrite disabled, the materialization step of
`deployFromGit` leaves every pre-existing workspace path untouched,
ignores entries with empty or absent content entirely, and the written and
skipped lists together are exactly the keys of the non-empty entries. -/
theorem C4_materializer (ws : List FsEntry)
    (files : List (String × Option String))
    (hnodup : (files.map Prod.fst).Nodup) :
    (∀ m, existsTop ws m = true →
      lookupTop (materialize ws files false).2.2 m = lookupTop ws m) ∧
    ((materialize ws files false).1 ++
      (materialize ws files false).2.1).Perm
      ((files.filter fun e => !falsyContent e.2).map Prod.fst) ∧
    (∀ m c0, (m, c0) ∈ files → falsyContent c0 = true →
      m ∉ (materialize ws files false).1 ∧
      m ∉ (materialize ws files false).2.1 ∧
      lookupTop (materialize ws files false).2.2 m = lookupTop ws m) := by
  obtain ⟨h1, h2, h3⟩ := materialize_core files ws
  have hnot : ∀ m c0, (m, c0) ∈ files → falsyContent c0 = true →
      m ∉ (materialize ws files false).1 ++
        (materialize ws files false).2.1 := by
    intro m c0 hm hfal hmem
    have := h2.mem_iff.mp hmem
    rcases List.mem_map.mp this with ⟨e, he, hfst⟩
    rcases List.mem_filter.mp he with ⟨hin, hpe⟩
    obtain ⟨m2, c2⟩ := e
    simp only at hfst
    subst hfst
    have hcc : c0 = c2 := nodup_keys_eq files hnodup m2 c0 c2 hm hin
    rw [← hcc] at hpe
    rw [hfal] at hpe
    simp at hpe
  refine ⟨fun m hm => (h1 m hm).1, h2, ?_⟩
  intro m c0 hm hfal
  have hmem := hnot m c0 hm hfal
  rw [List.mem_append] at hmem
  push_neg at hmem
  refine ⟨hmem.1, hmem.2, ?_⟩
  by_cases hd : lookupTop (materialize ws files false).2.2 m = lookupTop ws m
  · exact hd
  · exact absurd (h3 m hd) hmem.1

/-- C4, witness: the theorem applied to a concrete workspace and file
set. -/
theorem C4_witness :
    (∀ m, existsTop [FsEntry.file "README.md" "old"] m = true →
      lookupTop (materialize [FsEntry.file "README.md" "old"]
        [("smithery.yaml", some "runtime: typescript\n"),
         ("README.md", some "new"), ("Dockerfile", some ""),
         (".dockerignore", none)] false).2.2 m =
      lookupTop [FsEntry.file "README.md" "old"] m) ∧
    ((materialize [FsEntry.file "README.md" "old"]
        [("smithery.yaml", some "runtime: typescript\n"),
         ("README.md", some "new"), ("Dockerfile", some ""),
         (".dockerignore", none)] false).1 ++
      (materialize [FsEntry.file "README.md" "old"]
        [("smithery.yaml", some "runtime: typescript\n"),
         ("README.md", some "new"), ("Dockerfile", some ""),
         (".dockerignore", none)] false).2.1).Perm
      (([("smithery.yaml", some "runtime: typescript\n"),
         ("README.md", some "new"), ("Dockerfile", some ""),
         ((".dockerignore" : String), (none : Option String))].filter
        fun e => !falsyContent e.2).map Prod.fst) ∧
    (∀ m c0,
      (m, c0) ∈ [("smithery.yaml", some "runtime: typescript\n"),
        ("README.md", some "new"), ("Dockerfile", some ""),
        (".dockerignore", none)] → falsyContent c0 = true →
      m ∉ (materialize [FsEntry.file "README.md" "old"]
        [("smithery.yaml", some "runtime: typescript\n"),
         ("README.md", some "new"), ("Dockerfile", some ""),
         (".dockerignore", none)] false).1 ∧
      m ∉ (materialize [FsEntry.file "README.md" "old"]
        [("smithery.yaml", some "runtime: typescript\n"),
         ("README.md", some "new"), ("Dockerfile", some ""),
         (".dockerignore", none)] false).2.1 ∧
      lookupTop (materialize [FsEntry.file "README.md" "old"]
        [("smithery.yaml", some "runtime: typescript\n"),
         ("README.md", some "new"), ("Dockerfile", some ""),
         (".dockerignore", none)] false).2.2 m =
      lookupTop [FsEntry.file "README.md" "old"] m) :=
  C4_materializer [FsEntry.file "README.md" "old"]
    [("smithery.yaml", some "runtime: typescript\n"),
     ("README.md", some "new"), ("Dockerfile", some ""),
     (".dockerignore", none)] (by decide)

/-! ## Lemmas about `cloneRepository` and `deployFromGit` -/

theorem cloneFetch_error (env : CloneEnv) (td b : String)
    (evs : List CEvent) (e : String)
    (herr : (cloneFetch env td b evs).1 = .error e) :
    (∃ cause, e = "Failed to download repository: " ++ cause) ∧
    ∃ mid, (cloneFetch env td b evs).2 = evs ++ mid ++ [.rm td] := by
  cases ht : env.tarball b with
  | netError m =>
      simp only [cloneFetch, ht, cloneFail] at herr ⊢
      refine ⟨⟨m, (Except.error.inj herr).symm⟩,
        [.fetchTarball b], by rw [List.append_assoc]⟩
  | notOk statusLine errorText =>
      simp only [cloneFetch, ht, cloneFail] at herr ⊢
      refine ⟨⟨"Failed to download repository: " ++ statusLine ++ ". " ++
        errorText, (Except.error.inj herr).symm⟩,
        [.fetchTarball b], by rw [List.append_assoc]⟩
  | noBody =>
      simp only [cloneFetch, ht, cloneFail] at herr ⊢
      refine ⟨⟨"No response body received from GitHub API",
        (Except.error.inj herr).symm⟩,
        [.fetchTarball b], by rw [List.append_assoc]⟩
  | extractError m =>
      simp only [cloneFetch, ht, cloneFail] at herr ⊢
      refine ⟨⟨m, (Except.error.inj herr).symm⟩,
        [.fetchTarball b, .extract td], by rw [List.append_assoc]⟩
  | ok contents =>
      simp only [cloneFetch, ht] at herr
      cases herr

/-- C8: whenever `cloneRepository` fails after creating its scratch
directory (transport error, non-ok download response, missing body, or
archive-extraction error), the scratch directory removal is the last
event before the error propagates, and the error is the wrapped
fetch-failure form carrying the underlying cause. -/
theorem C8_cloneCleanup (env : CloneEnv) (url : String)
    (branch : Option String) (e : String)
    (hp : (parseGitUrl url).isSome = true)
    (herr : (cloneRepository env url branch).1 = .error e) :
    (∃ cause, e = "Failed to download repository: " ++ cause) ∧
    (cloneRepository env url branch).2.head? =
      some (.mkdtemp env.tempName) ∧
    (cloneRepository env url branch).2.getLast? =
      some (.rm env.tempName) := by
  cases hpu : parseGitUrl url with
  | none => rw [hpu] at hp; cases hp
  | some p =>
      cases branch with
      | some b =>
          have h0 : (cloneRepository env url (some b)).1 =
              (cloneFetch env env.tempName b
                [.mkdtemp env.tempName]).1 := by
            simp [cloneRepository, hpu]
          have h1 : (cloneRepository env url (some b)).2 =
              (cloneFetch env env.tempName b
                [.mkdtemp env.tempName]).2 := by
            simp [cloneRepository, hpu]
          rw [h0] at herr
          obtain ⟨hcause, mid, hmid⟩ :=
            cloneFetch_error env env.tempName b _ e herr
          rw [h1, hmid]
          refine ⟨hcause, by simp, List.getLast?_concat _⟩
      | none =>
          cases hri : env.repoInfo with
          | error e2 =>
              have h0 : cloneRepository env url none =
                  (.error ("Failed to download repository: " ++ e2),
                   [.mkdtemp env.tempName, .getRepoInfo,
                    .rm env.tempName]) := by
                simp [cloneRepository, hpu, hri, cloneFail]
              rw [h0] at herr ⊢
              exact ⟨⟨e2, (Except.error.inj herr).symm⟩, rfl, rfl⟩
          | ok info =>
              have h0 : (cloneRepository env url none).1 =
                  (cloneFetch env env.tempName (defaultOf info)
                    [.mkdtemp env.tempName, .getRepoInfo]).1 := by
                simp [cloneRepository, hpu, hri]
              have h1 : (cloneRepository env url none).2 =
                  (cloneFetch env env.tempName (defaultOf info)
                    [.mkdtemp env.tempName, .getRepoInfo]).2 := by
                simp [cloneRepository, hpu, hri]
              rw [h0] at herr
              obtain ⟨hcause, mid, hmid⟩ :=
                cloneFetch_error env env.tempName (defaultOf info) _ e herr
              rw [h1, hmid]
              refine ⟨hcause, by simp, List.getLast?_concat _⟩

/-- C8, witness: a run whose download response is non-ok. -/
theorem C8_witness :
    (∃ cause, "Failed to download repository: " ++
      "Failed to download repository: 404 Not Found. missing" =
      "Failed to download repository: " ++ cause) ∧
    (cloneRepository
      ⟨"tmp0", .ok (some "dev"), fun _ => .notOk "404 Not Found" "missing"⟩
      "https://github.com/acme/widget" none).2.head? =
      some (.mkdtemp "tmp0") ∧
    (cloneRepository
      ⟨"tmp0", .ok (some "dev"), fun _ => .notOk "404 Not Found" "missing"⟩
      "https://github.com/acme/widget" none).2.getLast? =
      some (.rm "tmp0") :=
  C8_cloneCleanup
    ⟨"tmp0", .ok (some "dev"), fun _ => .notOk "404 Not Found" "missing"⟩
    "https://github.com/acme/widget" none
    ("Failed to download repository: " ++
      "Failed to download repository: 404 Not Found. missing")
    (by decide) rfl

/-- C9: when no branch is given and the repository-metadata lookup
completes, `cloneRepository` resolves the branch to the provider-reported
default — `main` only when the lookup response was non-ok or the reported
name empty — fetches the tarball of that branch, and returns it on
success; in particular a reported default of `dev` resolves to `dev`, and
a failed lookup to `main`. -/
theorem C9_defaultBranch (env : CloneEnv) (url : String) (p : ParsedUrl)
    (info : Option String)
    (hpu : parseGitUrl url = some p) (hri : env.repoInfo = .ok info) :
    CEvent.fetchTarball (defaultOf info) ∈
      (cloneRepository env url none).2 ∧
    (∀ td b contents, (cloneRepository env url none).1 =
      .ok (td, b, contents) → b = defaultOf info) ∧
    defaultOf (some "dev") = "dev" ∧ defaultOf none = "main" := by
  have h1e : (cloneRepository env url none).1 =
      (cloneFetch env env.tempName (defaultOf info)
        [.mkdtemp env.tempName, .getRepoInfo]).1 := by
    simp [cloneRepository, hpu, hri]
  have h2e : (cloneRepository env url none).2 =
      (cloneFetch env env.tempName (defaultOf info)
        [.mkdtemp env.tempName, .getRepoInfo]).2 := by
    simp [cloneRepository, hpu, hri]
  refine ⟨?_, ?_, rfl, rfl⟩
  · rw [h2e]
    cases ht : env.tarball (defaultOf info) <;>
      simp [cloneFetch, ht, cloneFail]
  · intro td b contents hok
    rw [h1e] at hok
    cases ht : env.tarball (defaultOf info) with
    | ok contents2 =>
        simp only [cloneFetch, ht] at hok
        have h3 := Except.ok.inj hok
        exact ((Prod.mk.inj (Prod.mk.inj h3).2).1).symm
    | netError m => simp [cloneFetch, ht, cloneFail] at hok
    | notOk s1 s2 => simp [cloneFetch, ht, cloneFail] at hok
    | noBody => simp [cloneFetch, ht, cloneFail] at hok
    | extractError m => simp [cloneFetch, ht, cloneFail] at hok

/-- C9, witness: the provider reports default branch `dev`. -/
theorem C9_witness :
    CEvent.fetchTarball (defaultOf (some "dev")) ∈
      (cloneRepository cloneEnvOk "https://github.com/acme/widget"
        none).2 ∧
    "dev" = defaultOf (some "dev") ∧
    defaultOf (some "dev") = "dev" ∧ defaultOf none = "main" := by
  have h := C9_defaultBranch cloneEnvOk "https://github.com/acme/widget"
    ⟨"acme", "widget"⟩ (some "dev") (by decide) rfl
  exact ⟨h.1, h.2.1 "tmp0" "dev" [.file "a.txt" "A"] rfl, h.2.2⟩

/-- C5: `deployFromGit` always returns a structured outcome — on every
path the result carries an error detail exactly when it is not a success
— and a push-step failure still carries the partial lists of files
written and files skipped by the materialization step. -/
theorem C5_outcome (env : DeployEnv) (opts : GitDeployOptions)
    (generatedFiles : List (String × Option String)) :
    ((deployFromGit env opts generatedFiles).1.success = false ↔
      ((deployFromGit env opts generatedFiles).1.error).isSome = true) ∧
    (∀ td rb contents,
      (cloneRepository env.cloneEnv opts.sourceRepoUrl
        opts.sourceBranch).1 = .ok (td, rb, contents) →
      (env.repoExists = true ∨ (opts.createIfNotExists = true ∧
        env.createRepoError = none)) →
      (pushToGitHub env.api
        (materialize contents generatedFiles opts.force).2.2
        opts.targetBranch
        "Add Smithery deployment configuration").1.success = false →
      (deployFromGit env opts generatedFiles).1.filesGenerated =
        (materialize contents generatedFiles opts.force).1 ∧
      (deployFromGit env opts generatedFiles).1.filesSkipped =
        (materialize contents generatedFiles opts.force).2.1 ∧
      (deployFromGit env opts generatedFiles).1.success = false ∧
      (deployFromGit env opts generatedFiles).1.error =
        some ("Failed to push: " ++
          ((pushToGitHub env.api
            (materialize contents generatedFiles opts.force).2.2
            opts.targetBranch
            "Add Smithery deployment configuration").1.error.getD
            ""))) := by
  constructor
  · cases hcl : (cloneRepository env.cloneEnv opts.sourceRepoUrl
        opts.sourceBranch).1 with
    | error e => simp [deployFromGit, hcl, deployFailure]
    | ok trip =>
        obtain ⟨td, rb, contents⟩ := trip
        by_cases hgate : env.repoExists = true ∨
            (opts.createIfNotExists = true ∧ env.createRepoError = none)
        · cases hps : (pushToGitHub env.api
              (materialize contents generatedFiles opts.force).2.2
              opts.targetBranch
              "Add Smithery deployment configuration").1.success with
          | true =>
              simp [deployFromGit, hcl, deployAfterClone, hgate, hps]
          | false =>
              simp [deployFromGit, hcl, deployAfterClone, hgate, hps,
                deployFailure]
        · have hre : env.repoExists = false := by
            cases hrepo : env.repoExists with
            | false => rfl
            | true => exact absurd (Or.inl hrepo) hgate
          cases hci : opts.createIfNotExists with
          | true =>
              have hcre : ¬env.createRepoError = none :=
                fun h => hgate (Or.inr ⟨hci, h⟩)
              simp [deployFromGit, hcl, deployAfterClone, hre, hci, hcre,
                deployFailure]
          | false =>
              simp [deployFromGit, hcl, deployAfterClone, hre, hci,
                deployFailure]
  · intro td rb contents hcl hgate hps
    simp only [deployFromGit, hcl]
    simp only [deployAfterClone, if_pos hgate]
    simp [hps, deployFailure]

/-- C6: on every exit path of `deployFromGit` after a successful clone,
the removal of the clone scratch directory is the final orchestrator
event, and the deployment result is identical whether or not the removal
throws — `cleanupTempDir` swallows removal errors. -/
theorem C6_cleanup (env : DeployEnv) (opts : GitDeployOptions)
    (generatedFiles : List (String × Option String))
    (td rb : String) (contents : List FsEntry)
    (hclone : (cloneRepository env.cloneEnv opts.sourceRepoUrl
      opts.sourceBranch).1 = .ok (td, rb, contents)) :
    (deployFromGit env opts generatedFiles).2.getLast? =
      some (.cleanup td) ∧
    (deployFromGit { env with rmFails := true } opts generatedFiles).1 =
      (deployFromGit { env with rmFails := false } opts
        generatedFiles).1 ∧
    cleanupTempDir true = cleanupTempDir false := by
  refine ⟨?_, ?_, rfl⟩
  · simp only [deployFromGit, hclone]
    have h3 : DEvent.cloneCall ::
        (deployAfterClone env opts generatedFiles contents).2 ++
        [DEvent.cleanup td] =
        (DEvent.cloneCall ::
          (deployAfterClone env opts generatedFiles contents).2) ++
        [DEvent.cleanup td] := rfl
    rw [h3]
    exact List.getLast?_concat _
  · rfl

/-- Environment whose push step fails against an empty destination. -/
def envPushFail : DeployEnv where
  cloneEnv := cloneEnvOk
  repoExists := true
  createRepoError := none
  api := apiNone
  rmFails := false

/-- Options used by the orchestrator witnesses. -/
def optsW : GitDeployOptions where
  sourceRepoUrl := "https://github.com/acme/widget"
  sourceBranch := none
  targetOwner := "acme"
  targetRepo := "widget-mcp"
  targetBranch := "main"
  createIfNotExists := true
  force := false

/-- C5, witness: a push failure reported with the partial lists. -/
theorem C5_witness :
    ((deployFromGit envPushFail optsW
        [("smithery.yaml", some "x")]).1.success = false ↔
      ((deployFromGit envPushFail optsW
        [("smithery.yaml", some "x")]).1.error).isSome = true) ∧
    ((deployFromGit envPushFail optsW
        [("smithery.yaml", some "x")]).1.filesGenerated =
      (materialize [FsEntry.file "a.txt" "A"]
        [("smithery.yaml", some "x")] false).1 ∧
     (deployFromGit envPushFail optsW
        [("smithery.yaml", some "x")]).1.filesSkipped =
      (materialize [FsEntry.file "a.txt" "A"]
        [("smithery.yaml", some "x")] false).2.1 ∧
     (deployFromGit envPushFail optsW
        [("smithery.yaml", some "x")]).1.success = false ∧
     (deployFromGit envPushFail optsW
        [("smithery.yaml", some "x")]).1.error =
      some ("Failed to push: " ++
        ((pushToGitHub envPushFail.api
          (materialize [FsEntry.file "a.txt" "A"]
            [("smithery.yaml", some "x")] false).2.2
          optsW.targetBranch
          "Add Smithery deployment configuration").1.error.getD ""))) := by
  have h := C5_outcome envPushFail optsW [("smithery.yaml", some "x")]
  exact ⟨h.1, h.2 "tmp0" "dev" [FsEntry.file "a.txt" "A"] rfl
    (Or.inl rfl) rfl⟩

/-- C6, witness: the theorem applied to a concrete run. -/
theorem C6_witness :
    (deployFromGit envPushFail optsW
      [("smithery.yaml", some "x")]).2.getLast? =
      some (.cleanup "tmp0") ∧
    (deployFromGit { envPushFail with rmFails := true } optsW
      [("smithery.yaml", some "x")]).1 =
      (deployFromGit { envPushFail with rmFails := false } optsW
        [("smithery.yaml", some "x")]).1 ∧
    cleanupTempDir true = cleanupTempDir false :=
  C6_cleanup envPushFail optsW [("smithery.yaml", some "x")] "tmp0" "dev"
    [FsEntry.file "a.txt" "A"] rfl
